import Mathlib

/-!
Verification of the DecentralizedDeliverySim core against its specification.

The Python source is shallowly embedded as follows.

* Grid coordinates are exact integers (`ℤ × ℤ`); every quantity the code
  holds in a float (battery, rotation, random draws, means) is an exact
  rational (`ℚ`), and comparisons the code makes on `sqrt` of an integer
  (`distance.euclidean(p, q) <= r`) are embedded as the equivalent exact
  comparison of the squared distance (`sqrt` is monotone and the thresholds
  are exact, so the two decide identically).
* Every call to `random.*` / `np.random.*` is an explicit oracle argument:
  a value (or indexed family of values) handed to the embedded function;
  hypotheses on a theorem state exactly the range the sampler guarantees
  (for example `random.randint(-5, 5)` yields a draw `d` with `-5 ≤ d ≤ 5`).
* Python dicts (`Agent.knowledge`, insertion-ordered, unique keys) are
  association lists `List (ℕ × Pt)` with `dictGet` / `dictSet` mirroring
  `d[k]` / `d[k] = v` (overwrite in place, append when new).
* Float trigonometry in `Agent._move_toward_target` (`atan2`, `cos`, `sin`)
  is not exactly representable; the angle returned by `atan2` and the
  course vector `(cos(rotation)*speed, sin(rotation)*speed)` enter as oracle
  inputs, while all the surrounding arithmetic (gradual turning, jitter,
  truncation, clamping, counters) is embedded exactly.  No claim below
  depends on the value of the trigonometric quantities themselves.
* Fields that exist only for rendering (`last_positions`, `message_cooldown`,
  `carrying_package`, `target_customer`, `returning_to_base`,
  `delivery_attempt`, `acceleration`) are omitted: no claim and no embedded
  control path reads them.
-/

namespace DDS

/-- A 2D integer grid point, as the `(x, y)` tuples of the source. -/
abbrev Pt := ℤ × ℤ

/-- Squared Euclidean distance between two grid points.  The source compares
`math.sqrt`/`scipy` Euclidean distances against integer thresholds; those
comparisons are embedded as comparisons of this square against the squared
threshold. -/
def euclidSq (p q : Pt) : ℤ :=
  (p.1 - q.1) ^ 2 + (p.2 - q.2) ^ 2

/-- The grid clamp the source writes as `max(0, min(size-1, v))`. -/
def clampCoord (size v : ℤ) : ℤ :=
  max 0 (min (size - 1) v)

/-- Python `int(...)` / NumPy `.astype(int)`: truncation toward zero. -/
def ratTrunc (q : ℚ) : ℤ :=
  if 0 ≤ q then ⌊q⌋ else ⌈q⌉

/-- Python float `x % 360.0` (the divisor is positive, so the result is
`x - 360 * floor(x / 360)`). -/
def qmod360 (x : ℚ) : ℚ :=
  x - 360 * (⌊x / 360⌋ : ℤ)

/-- An agent's `knowledge` dict `{customer_id: (x, y)}`: an insertion-ordered
association list with unique keys, as a Python dict. -/
abbrev Knowledge := List (ℕ × Pt)

/-- Dict lookup `m[k]` (`none` when the key is absent). -/
def dictGet (m : Knowledge) (k : ℕ) : Option Pt :=
  (m.find? fun e => e.1 == k).map (·.2)

/-- Dict write `m[k] = v`: overwrite in place when the key exists, append
otherwise (Python dicts keep insertion order). -/
def dictSet (m : Knowledge) (k : ℕ) (v : Pt) : Knowledge :=
  if m.any (fun e => e.1 == k) then
    m.map (fun e => if e.1 == k then (k, v) else e)
  else m ++ [(k, v)]

/-- The state of `agent.Agent` (rendering-only fields omitted, see above).
Defaults mirror `Agent.__init__`; `battery_drain_rate` is sampled in
`uniform(0.08, 0.12)` at construction, the default fixes one such value. -/
structure Agent where
  id : ℕ := 0
  pos : Pt
  is_byzantine : Bool := false
  knowledge : Knowledge := []
  step : ℕ := 0
  direction : ℕ := 0
  spiral_length : ℕ := 1
  steps_in_current_direction : ℕ := 0
  turns_taken : ℕ := 0
  battery : ℚ := 100
  battery_drain_rate : ℚ := 1/10
  max_speed : ℚ := 1
  current_speed : ℚ := 1
  rotation : ℚ := 0
  turning_rate : ℚ := 15
  lie_probability : ℚ := 7/10

/-- The state of `environment.Environment` (the unused `grid` array is
omitted). -/
structure Env where
  size : ℤ
  customers : List Pt
  step_count : ℕ := 0

/-- `Environment.move_customers`: every 5 internal steps each customer is
jittered by the drawn deltas and clamped; the step counter always advances.
`draw i` is the pair `np.random.choice([-1,0,1])` drew for customer `i`. -/
def move_customers (draw : ℕ → ℤ × ℤ) (env : Env) : Env :=
  if env.step_count % 5 = 0 then
    { env with
      customers := env.customers.enum.map (fun ic =>
        (clampCoord env.size (ic.2.1 + (draw ic.1).1),
         clampCoord env.size (ic.2.2 + (draw ic.1).2))),
      step_count := env.step_count + 1 }
  else { env with step_count := env.step_count + 1 }

/-- `Agent.drain_battery`: subtract `drain_rate * (speed/max_speed) * noise`
and floor at 0.  `noise` is the `random.uniform(0.9, 1.1)` draw.  The caller
tests `0 < battery` afterwards (the Python method returns that test). -/
def drain_battery (noise : ℚ) (a : Agent) : Agent :=
  { a with
    battery := max 0 (a.battery - a.battery_drain_rate * (a.current_speed / a.max_speed) * noise) }

/-- `Agent.apply_wind`: when the drone is moving, offset each axis by
`wind * uniform(0, 0.5)`, truncate to int and clamp to the hardcoded range
`[0, 19]` (the source writes the literal `19`, not `size - 1`). -/
def apply_wind (wind_dx wind_dy u1 u2 : ℚ) (a : Agent) : Agent :=
  if 0 < a.current_speed then
    { a with pos :=
        (max 0 (min (ratTrunc ((a.pos.1 : ℚ) + wind_dx * u1)) 19),
         max 0 (min (ratTrunc ((a.pos.2 : ℚ) + wind_dy * u2)) 19)) }
  else a

/-- `Agent._move_random`: a uniform step in `{-1,0,1}` per axis (the oracle
pair), clamped to the grid. -/
def move_random (env : Env) (dx dy : ℤ) (a : Agent) : Agent :=
  { a with
    pos := (clampCoord env.size (a.pos.1 + dx), clampCoord env.size (a.pos.2 + dy)),
    step := a.step + 1 }

/-- The gradual-turning rule both movement states share: signed angular
difference folded into `(-180, 180]`, a turn of at most `turning_rate`
toward the target angle, snapping when within one step. -/
def turnToward (rot target rate : ℚ) : ℚ :=
  let diff := qmod360 (target - rot + 180) - 180
  if |diff| > rate then
    (if diff > 0 then qmod360 (rot + rate) else qmod360 (rot - rate))
  else target

/-- First strict minimizer of the Euclidean distance from `p` among the
knowledge entries, in insertion order — `Agent._move_toward_target`'s
nearest-customer scan (`d1 < d2 ↔ d1² < d2²` on nonnegative reals, so the
squared comparison picks the same entry). -/
def nearestEntry (p : Pt) : Knowledge → Option (ℕ × Pt)
  | [] => none
  | e :: rest =>
    some (rest.foldl (fun best e' =>
      if euclidSq e'.2 p < euclidSq best.2 p then e' else best) e)

/-- The random draws one call of `Agent._move_toward_target` consumes.
`target_angle` stands for the float `degrees(atan2(dy, dx))` folded into
`[0, 360)`; `course` for `(cos(rotation')*speed, sin(rotation')*speed)`
after the turn; `jitter` is the `uniform(-0.2, 0.2)` pair applied with
probability 0.1. -/
structure SeekRand where
  target_angle : ℚ
  course : ℚ × ℚ
  jitter_draw : ℚ
  jitter : ℚ × ℚ

/-- The random draws one call of `Agent.observe` consumes, indexed by
customer id: the lie roll and the `randint(-5, 5)` distortion pair. -/
structure ObsRand where
  lie_draw : ℕ → ℚ
  dx : ℕ → ℤ
  dy : ℕ → ℤ

/-- The coordinate `Agent.observe` stores for in-range customer `i` truly at
`c`: honest agents store `c`; a Byzantine agent with a successful lie roll
stores the distorted coordinate clamped to the grid, otherwise `c`. -/
def observeValue (env : Env) (r : ObsRand) (a : Agent) (i : ℕ) (c : Pt) : Pt :=
  if a.is_byzantine = false then c
  else if r.lie_draw i < a.lie_probability then
    (clampCoord env.size (c.1 + r.dx i), clampCoord env.size (c.2 + r.dy i))
  else c

/-- `Agent.observe`: for every customer within Euclidean distance 3
(`euclidSq ≤ 9`), write `observeValue` into the knowledge dict. -/
def observe (env : Env) (r : ObsRand) (a : Agent) : Agent :=
  { a with knowledge :=
      env.customers.enum.foldl (fun m ic =>
        if euclidSq ic.2 a.pos ≤ 9 then dictSet m ic.1 (observeValue env r a ic.1 ic.2)
        else m) a.knowledge }

/-- `Agent._move_toward_target` (selection and turning exact, trigonometry
by oracle, see the header): turn toward the bearing, advance by the course
vector with optional jitter, truncate and clamp; falls back to the spiral
when no entry exists. -/
def move_toward_target (env : Env) (r : SeekRand) (spiral : Agent → Agent) (a : Agent) : Agent :=
  match nearestEntry a.pos a.knowledge with
  | none => spiral a
  | some _ =>
    let rot := turnToward a.rotation r.target_angle a.turning_rate
    let md : ℚ × ℚ :=
      if r.jitter_draw < 1/10 then (r.course.1 + r.jitter.1, r.course.2 + r.jitter.2)
      else r.course
    { a with
      rotation := rot,
      pos := (clampCoord env.size (ratTrunc ((a.pos.1 : ℚ) + md.1)),
              clampCoord env.size (ratTrunc ((a.pos.2 : ℚ) + md.2))),
      step := a.step + 1 }

/-- `Agent.spiral_directions`: right, down, left, up.  The direction index
is only ever advanced modulo 4, so the catch-all arm is the `3` case. -/
def spiralDir : ℕ → Pt
  | 0 => (0, 1)
  | 1 => (1, 0)
  | 2 => (0, -1)
  | _ => (-1, 0)

/-- The target rotations `[0, 90, 180, 270]` of `Agent._move_spiral`. -/
def spiralAngle : ℕ → ℚ
  | 0 => 0
  | 1 => 90
  | 2 => 180
  | _ => 270

/-- `Agent._move_spiral`: step one cell in the current direction (turning the
heading gradually toward that direction's angle); if the clamp made the step
a no-op, advance the direction index once and retry; then update the arm
counters — after `spiral_length` steps in a direction, turn, and every
second counted turn lengthen the arm. -/
def move_spiral (env : Env) (a : Agent) : Agent :=
  let d := spiralDir a.direction
  let first := (clampCoord env.size (a.pos.1 + d.1), clampCoord env.size (a.pos.2 + d.2))
  let rot := turnToward a.rotation (spiralAngle a.direction) a.turning_rate
  let dir1 := if first = a.pos then (a.direction + 1) % 4 else a.direction
  let newPos :=
    if first = a.pos then
      let d2 := spiralDir dir1
      (clampCoord env.size (a.pos.1 + d2.1), clampCoord env.size (a.pos.2 + d2.2))
    else first
  let steps := a.steps_in_current_direction + 1
  if steps ≥ a.spiral_length then
    { a with
      rotation := rot, pos := newPos, step := a.step + 1,
      direction := (dir1 + 1) % 4,
      steps_in_current_direction := 0,
      turns_taken := a.turns_taken + 1,
      spiral_length :=
        a.spiral_length + (if (a.turns_taken + 1) % 2 = 0 then 1 else 0) }
  else
    { a with
      rotation := rot, pos := newPos, step := a.step + 1,
      direction := dir1,
      steps_in_current_direction := steps }

/-- The random draws one call of `Agent.move` consumes. -/
structure MoveRand where
  drain_noise : ℚ
  byz_draw : ℚ
  rand_dx : ℤ
  rand_dy : ℤ
  seek : SeekRand
  obs : ObsRand

/-- `Agent.move`: drain the battery and stop dead when it is depleted; a
Byzantine agent moves erratically with probability 0.1 (and then returns at
once, without observing); otherwise an honest agent with knowledge seeks its
nearest known customer and every other agent spirals, and the mover then
re-observes the environment from its new position. -/
def move (env : Env) (r : MoveRand) (a : Agent) : Agent :=
  let a1 := drain_battery r.drain_noise a
  if 0 < a1.battery then
    if a1.is_byzantine = true ∧ r.byz_draw < 1/10 then
      move_random env r.rand_dx r.rand_dy a1
    else
      let a2 :=
        if a1.knowledge ≠ [] ∧ a1.is_byzantine = false then
          move_toward_target env r.seek (move_spiral env) a1
        else move_spiral env a1
      observe env r.obs a2
  else a1

/-- `Agent.share_knowledge`: an agent below 20% battery fails to transmit
when the reliability roll lands below 0.3 (an empty dict), and otherwise
returns a copy of its knowledge (the embedding is pure, so the copy and the
dict have the same value). -/
def share_knowledge (fail_draw : ℚ) (a : Agent) : Knowledge :=
  if a.battery < 20 ∧ fail_draw < 3/10 then [] else a.knowledge

/-! ## Consensus engine (`consensus.Consensus.update_knowledge`)

The pass iterates over receiving agents in list order, mutating their
knowledge in place, so a later receiver observes the writes already made for
earlier receivers of the same pass.  Each `share_knowledge` call re-rolls its
reliability draw: `fail i j` is the draw consumed when receiver `i` polls
sender `j`.  Only the keys of the accumulated `shared` dict are ever read
(the fusion re-collects coordinates from every agent's own knowledge), so the
`shared` dict is embedded as its ordered key list. -/

/-- The keys of `other.share_knowledge()`, in dict order. -/
def reportKeys (fail_draw : ℚ) (a : Agent) : List ℕ :=
  (share_knowledge fail_draw a).map (·.1)

/-- `shared.update(...)`: keys already present keep their position, new keys
are appended in report order. -/
def addNewKeys (acc ks : List ℕ) : List ℕ :=
  ks.foldl (fun acc k => if acc.contains k then acc else acc ++ [k]) acc

/-- The ordered key set of the `shared` dict receiver `i` accumulates: one
report from every other agent within Euclidean distance 5 (`euclidSq ≤ 25`),
in agent-list order. -/
def sharedKeysAt (fail : ℕ → ℚ) (fleet : List Agent) (i : ℕ) : List ℕ :=
  match fleet[i]? with
  | none => []
  | some ag =>
    (List.range fleet.length).foldl (fun acc j =>
      match fleet[j]? with
      | some o =>
        if j ≠ i ∧ euclidSq ag.pos o.pos ≤ 25 then addNewKeys acc (reportKeys (fail j) o)
        else acc
      | none => acc) []

/-- `[pos for a in self.agents for c, pos in a.knowledge.items() if c == cid]`:
the coordinate every agent in the whole fleet holds for `cid`. -/
def positionsFor (fleet : List Agent) (cid : ℕ) : List Pt :=
  (fleet.map (fun a => (a.knowledge.filter (fun e => e.1 == cid)).map (·.2))).flatten

/-- `np.mean(positions, axis=0)`: the coordinate-wise exact mean. -/
def avgPos (l : List Pt) : ℚ × ℚ :=
  ((l.map (fun p => (p.1 : ℚ))).sum / l.length,
   (l.map (fun p => (p.2 : ℚ))).sum / l.length)

/-- Squared Euclidean distance from an integer point to the (rational) mean. -/
def qdistSq (p : Pt) (m : ℚ × ℚ) : ℚ :=
  ((p.1 : ℚ) - m.1) ^ 2 + ((p.2 : ℚ) - m.2) ^ 2

/-- `len([p for p in positions if distance.euclidean(p, avg_pos) < 3])`:
how many collected coordinates lie strictly within distance 3 of the mean
(the source comparison is `< 3`, hence `qdistSq < 9`). -/
def closeCount (l : List Pt) (m : ℚ × ℚ) : ℕ :=
  (l.filter (fun p => qdistSq p m < 9)).length

/-- `tuple(avg_pos.astype(int))`: the mean truncated toward zero per axis. -/
def truncPt (m : ℚ × ℚ) : Pt :=
  (ratTrunc m.1, ratTrunc m.2)

/-- The inner `for cid in shared` loop for receiver `i`: collect the fleet-wide
positions for `cid` from the current (threaded) fleet state, and on quorum
(`count ≥ len(agents) // 2`) overwrite the receiver's entry with the truncated
mean. -/
def fuseCids (fleet : List Agent) (i : ℕ) : List ℕ → List Agent
  | [] => fleet
  | cid :: rest =>
    let ps := positionsFor fleet cid
    let fleet' :=
      if ps = [] then fleet
      else if closeCount ps (avgPos ps) ≥ fleet.length / 2 then
        match fleet[i]? with
        | some ag => fleet.set i { ag with knowledge := dictSet ag.knowledge cid (truncPt (avgPos ps)) }
        | none => fleet
      else fleet
    fuseCids fleet' i rest

/-- One receiving agent's turn of the pass. -/
def receiverTurn (fail : ℕ → ℚ) (fleet : List Agent) (i : ℕ) : List Agent :=
  fuseCids fleet i (sharedKeysAt fail fleet i)

/-- The pass run over an explicit order of receiver indices (the source
iterates the agent list front to back; `updateOrder` makes the order a
parameter so order-(in)dependence can be stated). -/
def updateOrder (fail : ℕ → ℕ → ℚ) (fleet : List Agent) (order : List ℕ) : List Agent :=
  order.foldl (fun acc i => receiverTurn (fail i) acc i) fleet

/-- `Consensus.update_knowledge`: the sequential pass over all receivers in
agent-list order. -/
def update_knowledge (fail : ℕ → ℕ → ℚ) (fleet : List Agent) : List Agent :=
  updateOrder fail fleet (List.range fleet.length)

/-- Modelled from the spec: the snapshot semantics of §5, by which every
receiver's fused values are computed from the pre-pass state of all
knowledge mappings, the writes being applied only afterwards.  Kept for
comparison with the sequential `update_knowledge` the source implements. -/
def update_knowledge_snapshot (fail : ℕ → ℕ → ℚ) (fleet : List Agent) : List Agent :=
  (List.range fleet.length).foldl (fun acc i =>
    match (receiverTurn (fail i) fleet i)[i]? with
    | some a' => acc.set i a'
    | none => acc) fleet

/-- Knowledge entry `cid` of agent `i` of a fleet (a reading convenience for
the statements below). -/
def knowAt (fleet : List Agent) (i cid : ℕ) : Option Pt :=
  match fleet[i]? with
  | some a => dictGet a.knowledge cid
  | none => none

/-! ## Performance metric (`metrics.competitive_ratio`)

The metric genuinely takes square roots (the minimum distances are summed,
not only compared), so it is embedded over `ℝ`; `float('inf')` becomes `⊤`
of `WithTop ℝ`. -/

/-- `distance.euclidean(agent.pos, c)`. -/
noncomputable def distR (p c : Pt) : ℝ :=
  Real.sqrt ((euclidSq p c : ℤ) : ℝ)

/-- `min(distance.euclidean(agent.pos, c) for c in env.customers)`. -/
noncomputable def minDistTo (p : Pt) : List Pt → ℝ
  | [] => 0
  | c :: rest => rest.foldl (fun m c' => min m (distR p c')) (distR p c)

/-- `sum(agent.step for agent in agents)`. -/
def total_steps (agents : List Agent) : ℕ :=
  (agents.map (·.step)).sum

/-- The "optimal remaining cost": the sum over agents of the minimum
distance to any remaining customer. -/
noncomputable def optimalCost (agents : List Agent) (customers : List Pt) : ℝ :=
  (agents.map (fun a => minDistTo a.pos customers)).sum

/-- `metrics.competitive_ratio`: the raw step sum when no customers remain,
otherwise `total / optimal`, with `float('inf')` when `optimal` is 0. -/
noncomputable def competitive_ratio (agents : List Agent) (env : Env) : WithTop ℝ :=
  if env.customers = [] then ((total_steps agents : ℝ) : WithTop ℝ)
  else if 0 < optimalCost agents env.customers then
    (((total_steps agents : ℝ) / optimalCost agents env.customers : ℝ) : WithTop ℝ)
  else ⊤

/-! ## Basic facts about the numeric helpers -/

/-- Both coordinates of `p` lie in the grid `[0, size-1]`. -/
def inBoundsPt (size : ℤ) (p : Pt) : Prop :=
  0 ≤ p.1 ∧ p.1 ≤ size - 1 ∧ 0 ≤ p.2 ∧ p.2 ≤ size - 1

instance (size : ℤ) (p : Pt) : Decidable (inBoundsPt size p) := by
  unfold inBoundsPt
  infer_instance

theorem ratTrunc_nonneg {q : ℚ} (h : -1 < q) : 0 ≤ ratTrunc q := by
  unfold ratTrunc
  split
  case isTrue h0 => exact Int.floor_nonneg.mpr h0
  case isFalse h0 =>
    have : (-1 : ℤ) < ⌈q⌉ := by
      rw [Int.lt_ceil]
      exact_mod_cast h
    omega

theorem ratTrunc_le {q : ℚ} {n : ℤ} (hn : 0 ≤ n) (h : q < (n : ℚ) + 1) :
    ratTrunc q ≤ n := by
  unfold ratTrunc
  split
  case isTrue h0 =>
    have : ⌊q⌋ < n + 1 := by
      rw [Int.floor_lt]
      push_cast
      exact h
    omega
  case isFalse h0 =>
    have : ⌈q⌉ ≤ 0 := by
      rw [Int.ceil_le]
      exact_mod_cast le_of_not_le h0
    omega

theorem clampCoord_bounds {size : ℤ} (h : 1 ≤ size) (v : ℤ) :
    0 ≤ clampCoord size v ∧ clampCoord size v ≤ size - 1 := by
  unfold clampCoord
  constructor
  · exact le_max_left 0 _
  · have h1 : min (size - 1) v ≤ size - 1 := min_le_left _ _
    have h2 : (0 : ℤ) ≤ size - 1 := by omega
    exact max_le h2 h1

/-! ## C9 — the knowledge-sharing contract -/

/-- C9: `share_knowledge` returns either the agent's full knowledge mapping
or the empty mapping; with battery at least 20 it always returns the full
mapping, and below 20 it returns the full mapping exactly when the
reliability draw is at least 0.3 (probability 0.7 under a uniform draw),
the draw being consumed anew on every call.  The embedding is pure, so the
returned mapping is a value: mutating it cannot alter the agent's own
knowledge. -/
theorem share_knowledge_contract (a : Agent) (q : ℚ) :
    (share_knowledge q a = a.knowledge ∨ share_knowledge q a = []) ∧
    (20 ≤ a.battery → share_knowledge q a = a.knowledge) ∧
    (a.battery < 20 →
      (q < 3/10 → share_knowledge q a = []) ∧
      (3/10 ≤ q → share_knowledge q a = a.knowledge)) := by
  unfold share_knowledge
  refine ⟨?_, ?_, ?_⟩
  · split
    · exact Or.inr rfl
    · exact Or.inl rfl
  · intro hb
    rw [if_neg]
    rintro ⟨h1, _⟩
    linarith
  · intro hb
    constructor
    · intro hq
      rw [if_pos ⟨hb, hq⟩]
    · intro hq
      rw [if_neg]
      rintro ⟨_, h2⟩
      linarith

/-! ## C7 — the spiral arm rule -/

/-- C7: in one unobstructed spiral step (the clamped move in the current
direction actually changes the position, so the boundary-escape override of
§4.2 does not fire), the agent advances one cell in the current direction of
the right→down→left→up cycle; it turns 90° — direction index +1 mod 4 —
exactly when this is its `spiral_length`-th step in that direction (the step
counter then resets and the turn is counted), and `spiral_length` grows by 1
exactly at every second counted turn. -/
theorem spiral_arm_rule (env : Env) (a : Agent)
    (hblock : (clampCoord env.size (a.pos.1 + (spiralDir a.direction).1),
               clampCoord env.size (a.pos.2 + (spiralDir a.direction).2)) ≠ a.pos) :
    (move_spiral env a).pos =
      (clampCoord env.size (a.pos.1 + (spiralDir a.direction).1),
       clampCoord env.size (a.pos.2 + (spiralDir a.direction).2)) ∧
    (move_spiral env a).direction =
      (if a.spiral_length ≤ a.steps_in_current_direction + 1
       then (a.direction + 1) % 4 else a.direction) ∧
    (move_spiral env a).steps_in_current_direction =
      (if a.spiral_length ≤ a.steps_in_current_direction + 1
       then 0 else a.steps_in_current_direction + 1) ∧
    (move_spiral env a).turns_taken =
      (if a.spiral_length ≤ a.steps_in_current_direction + 1
       then a.turns_taken + 1 else a.turns_taken) ∧
    (move_spiral env a).spiral_length =
      (if a.spiral_length ≤ a.steps_in_current_direction + 1 ∧ (a.turns_taken + 1) % 2 = 0
       then a.spiral_length + 1 else a.spiral_length) ∧
    (move_spiral env a).step = a.step + 1 := by
  unfold move_spiral
  simp only [if_neg hblock, ge_iff_le]
  by_cases hturn : a.spiral_length ≤ a.steps_in_current_direction + 1
  · simp only [if_pos hturn, true_and, hturn]
    by_cases heven : (a.turns_taken + 1) % 2 = 0
    · simp [heven]
    · simp [heven]
  · simp [if_neg hturn, hturn]

/-- A concrete instance of C7: an interior agent two cells into a length-3
arm pointing right; the step completes the arm, so the direction turns to
down, the counter resets, and (the turn being the fourth) the arm
lengthens. -/
def spiralWitnessAgent : Agent :=
  { pos := (5, 5), direction := 0, spiral_length := 3,
    steps_in_current_direction := 2, turns_taken := 3 }

theorem spiral_arm_rule_witness :
    (move_spiral { size := 20, customers := [] } spiralWitnessAgent).pos = (5, 6) ∧
    (move_spiral { size := 20, customers := [] } spiralWitnessAgent).direction = 1 ∧
    (move_spiral { size := 20, customers := [] } spiralWitnessAgent).steps_in_current_direction = 0 ∧
    (move_spiral { size := 20, customers := [] } spiralWitnessAgent).turns_taken = 4 ∧
    (move_spiral { size := 20, customers := [] } spiralWitnessAgent).spiral_length = 4 := by
  have h := spiral_arm_rule { size := 20, customers := [] } spiralWitnessAgent
    (by decide)
  obtain ⟨h1, h2, h3, h4, h5, _⟩ := h
  refine ⟨?_, ?_, ?_, ?_, ?_⟩
  · rw [h1]; decide
  · rw [h2]; decide
  · rw [h3]; decide
  · rw [h4]; decide
  · rw [h5]; decide

/-! ## Field-preservation lemmas for the movement operations -/

theorem observe_battery (env : Env) (r : ObsRand) (a : Agent) :
    (observe env r a).battery = a.battery := rfl

theorem observe_pos (env : Env) (r : ObsRand) (a : Agent) :
    (observe env r a).pos = a.pos := rfl

theorem drain_battery_pos (noise : ℚ) (a : Agent) :
    (drain_battery noise a).pos = a.pos := rfl

theorem move_random_battery (env : Env) (dx dy : ℤ) (a : Agent) :
    (move_random env dx dy a).battery = a.battery := rfl

theorem move_spiral_battery (env : Env) (a : Agent) :
    (move_spiral env a).battery = a.battery := by
  simp only [move_spiral]
  split <;> rfl

theorem move_toward_target_battery (env : Env) (r : SeekRand) (a : Agent) :
    (move_toward_target env r (move_spiral env) a).battery = a.battery := by
  unfold move_toward_target
  split
  · exact move_spiral_battery env a
  · rfl

theorem move_battery_eq_drained (env : Env) (r : MoveRand) (a : Agent) :
    (move env r a).battery = (drain_battery r.drain_noise a).battery := by
  unfold move
  dsimp only
  split
  · split
    · exact move_random_battery _ _ _ _
    · rw [observe_battery]
      split
      · exact move_toward_target_battery _ _ _
      · exact move_spiral_battery _ _
  · rfl

/-! ## C3 — battery monotonicity and the fate of a depleted agent -/

/-- C3 (amended): under the ranges the samplers guarantee (nonnegative drain
rate, speeds and noise, battery in `[0,100]`), one `move` never increases the
battery; and an agent whose battery is 0 keeps battery exactly 0 and does not
move: `move` returns before any movement state runs.  (The claim's further
assertion that the position never changes at all fails: `apply_wind`
displaces a depleted agent, see the counterexample.) -/
theorem battery_monotone_dead_frozen (env : Env) (r : MoveRand) (a : Agent)
    (hb : 0 ≤ a.battery) (hr : 0 ≤ a.battery_drain_rate)
    (hs : 0 ≤ a.current_speed) (hm : 0 ≤ a.max_speed) (hn : 0 ≤ r.drain_noise) :
    (move env r a).battery ≤ a.battery ∧
    (a.battery = 0 → (move env r a).battery = 0 ∧ (move env r a).pos = a.pos) := by
  have hd : 0 ≤ a.battery_drain_rate * (a.current_speed / a.max_speed) * r.drain_noise :=
    mul_nonneg (mul_nonneg hr (div_nonneg hs hm)) hn
  have hdrain : (drain_battery r.drain_noise a).battery ≤ a.battery := by
    unfold drain_battery
    exact max_le hb (by linarith)
  constructor
  · rw [move_battery_eq_drained]
    exact hdrain
  · intro h0
    have hzero : (drain_battery r.drain_noise a).battery = 0 := by
      unfold drain_battery
      simp only [h0, zero_sub]
      exact max_eq_left (by linarith)
    have hnotpos : ¬ 0 < (drain_battery r.drain_noise a).battery := by
      rw [hzero]
      exact lt_irrefl 0
    refine ⟨?_, ?_⟩
    · rw [move_battery_eq_drained, hzero]
    · unfold move
      rw [if_neg hnotpos, drain_battery_pos]

/-- C3's counterexample: a depleted, hovering agent at `(5,5)`; one wind gust
(`wind_dx = -1`, first `uniform(0, 0.5)` draw `= 1/2`) moves it to `(4,5)`
even though its battery is 0 — the position of a dead agent is not frozen
across ticks. -/
def deadAgent : Agent :=
  { pos := (5, 5), battery := 0 }

theorem wind_moves_depleted_agent :
    deadAgent.battery = 0 ∧
    (apply_wind (-1) 0 (1/2) 0 deadAgent).pos = (4, 5) ∧
    (apply_wind (-1) 0 (1/2) 0 deadAgent).pos ≠ deadAgent.pos := by
  have hfloor : ratTrunc ((9 : ℚ) / 2) = 4 := by
    unfold ratTrunc
    rw [if_pos (by norm_num)]
    rw [Int.floor_eq_iff]
    norm_num
  have htr5 : ratTrunc (5 : ℚ) = 5 := by
    unfold ratTrunc
    rw [if_pos (by norm_num)]
    exact_mod_cast Int.floor_intCast 5
  have hspeed : (0 : ℚ) < deadAgent.current_speed := by norm_num [deadAgent]
  have hpos : (apply_wind (-1) 0 (1/2) 0 deadAgent).pos
      = (max 0 (min (ratTrunc ((deadAgent.pos.1 : ℚ) + (-1) * (1/2))) 19),
         max 0 (min (ratTrunc ((deadAgent.pos.2 : ℚ) + 0 * 0)) 19)) := by
    unfold apply_wind
    rw [if_pos hspeed]
  have e1 : ((deadAgent.pos.1 : ℚ) + (-1) * (1/2)) = 9 / 2 := by norm_num [deadAgent]
  have e2 : ((deadAgent.pos.2 : ℚ) + 0 * 0) = 5 := by norm_num [deadAgent]
  rw [e1, e2, hfloor, htr5] at hpos
  refine ⟨rfl, ?_, ?_⟩
  · rw [hpos]; decide
  · rw [hpos]; decide

/-! ## Lemmas about the dict embedding -/

theorem find?_overwrite (v : Pt) {m : Knowledge} {k : ℕ}
    (hany : m.any (fun e => e.1 == k) = true) :
    (m.map (fun e => if e.1 == k then (k, v) else e)).find? (fun e => e.1 == k)
      = some (k, v) := by
  induction m with
  | nil => simp at hany
  | cons e rest ih =>
    by_cases h : (e.1 == k) = true
    · rw [List.map_cons, if_pos h, List.find?_cons]
      simp
    · rw [Bool.not_eq_true] at h
      have hrest : rest.any (fun e => e.1 == k) = true := by
        rcases List.any_eq_true.mp hany with ⟨x, hx, hpx⟩
        rcases List.mem_cons.mp hx with rfl | hx'
        · rw [hpx] at h
          cases h
        · exact List.any_eq_true.mpr ⟨x, hx', hpx⟩
      rw [List.map_cons, if_neg (by rw [h]; exact Bool.false_ne_true), List.find?_cons, h]
      exact ih hrest

theorem find?_overwrite_ne (v : Pt) (m : Knowledge) {k k' : ℕ} (h : k' ≠ k) :
    (m.map (fun e => if e.1 == k then (k, v) else e)).find? (fun e => e.1 == k')
      = m.find? (fun e => e.1 == k') := by
  induction m with
  | nil => rfl
  | cons e rest ih =>
    by_cases hek : (e.1 == k) = true
    · have hke' : ((k, v).1 == k') = false := by
        simp only [beq_eq_false_iff_ne]
        exact fun hh => h (hh.symm)
      have he' : (e.1 == k') = false := by
        simp only [beq_eq_false_iff_ne]
        rw [beq_iff_eq] at hek
        rw [hek]
        exact fun hh => h (hh.symm)
      simp only [List.map_cons, if_pos hek, List.find?_cons, hke', he', ih]
    · simp only [List.map_cons, if_neg hek, List.find?_cons]
      by_cases he' : (e.1 == k') = true
      · simp only [he']
      · rw [Bool.not_eq_true] at he'
        simp only [he', ih]

theorem dictGet_dictSet_self (m : Knowledge) (k : ℕ) (v : Pt) :
    dictGet (dictSet m k v) k = some v := by
  unfold dictGet dictSet
  split
  case isTrue hany => rw [find?_overwrite v hany]; rfl
  case isFalse hany =>
    rw [List.find?_append]
    have h1 : m.find? (fun e => e.1 == k) = none :=
      List.find?_eq_none.mpr (fun x hx hpx => hany (List.any_eq_true.mpr ⟨x, hx, hpx⟩))
    rw [h1, List.find?_cons_of_pos _ (by simp)]
    rfl

theorem dictGet_dictSet_ne (m : Knowledge) {k k' : ℕ} (h : k' ≠ k) (v : Pt) :
    dictGet (dictSet m k v) k' = dictGet m k' := by
  unfold dictGet dictSet
  split
  case isTrue hany => rw [find?_overwrite_ne v m h]
  case isFalse hany =>
    rw [List.find?_append]
    have h2 : List.find? (fun e => e.1 == k') [(k, v)] = none := by
      rw [List.find?_cons_of_neg]
      · rfl
      · simp only [beq_iff_eq]
        exact fun hh => h (hh.symm)
    rw [h2]
    cases m.find? (fun e => e.1 == k') <;> rfl

theorem filter_dictSet_ne (m : Knowledge) {k cid : ℕ} (h : k ≠ cid) (v : Pt) :
    (dictSet m k v).filter (fun e => e.1 == cid) = m.filter (fun e => e.1 == cid) := by
  unfold dictSet
  split
  case isTrue hany =>
    clear hany
    induction m with
    | nil => rfl
    | cons e rest ih =>
      by_cases hek : (e.1 == k) = true
      · have hkc : ((k, v).1 == cid) = false := by
          simp only [beq_eq_false_iff_ne]
          exact h
        have hec : (e.1 == cid) = false := by
          simp only [beq_eq_false_iff_ne]
          rw [beq_iff_eq] at hek
          rw [hek]
          exact h
        simp only [List.map_cons, if_pos hek, List.filter_cons, hkc, hec, ih]
        simp
      · simp only [List.map_cons, if_neg hek, List.filter_cons]
        by_cases hec : (e.1 == cid) = true
        · simp only [hec, ih]
        · rw [Bool.not_eq_true] at hec
          simp only [hec, ih]
  case isFalse hany =>
    rw [List.filter_append]
    have hone : List.filter (fun e => e.1 == cid) [(k, v)] = [] := by
      simp [List.filter_cons]
      exact h
    rw [hone, List.append_nil]

theorem set_getElem?_self {α : Type _} {l : List α} {i : ℕ} {x : α}
    (h : l[i]? = some x) : l.set i x = l := by
  induction l generalizing i with
  | nil => rfl
  | cons a rest ih =>
    cases i with
    | zero =>
      simp at h
      rw [h]
      rfl
    | succ n =>
      simp only [List.getElem?_cons_succ] at h
      simp [List.set_cons_succ, ih h]

/-! ## Structural lemmas about the consensus pass -/

theorem fuseCids_length (i : ℕ) (cids : List ℕ) (fleet : List Agent) :
    (fuseCids fleet i cids).length = fleet.length := by
  induction cids generalizing fleet with
  | nil => rfl
  | cons c rest ih =>
    simp only [fuseCids]
    rw [ih]
    split
    · rfl
    · split
      · split
        · simp [List.length_set]
        · rfl
      · rfl

theorem fuseCids_getElem_ne (i : ℕ) (cids : List ℕ) (fleet : List Agent)
    {j : ℕ} (hij : j ≠ i) :
    (fuseCids fleet i cids)[j]? = fleet[j]? := by
  induction cids generalizing fleet with
  | nil => rfl
  | cons c rest ih =>
    simp only [fuseCids]
    rw [ih]
    split
    · rfl
    · split
      · split
        · rw [List.getElem?_set_ne (fun h => hij h.symm)]
        · rfl
      · rfl

theorem fuseCids_receiver_shape (i : ℕ) (cids : List ℕ) (fleet : List Agent)
    {ag : Agent} (h : fleet[i]? = some ag) :
    ∃ k, (fuseCids fleet i cids)[i]? = some { ag with knowledge := k } := by
  induction cids generalizing fleet ag with
  | nil =>
    exact ⟨ag.knowledge, h⟩
  | cons c rest ih =>
    simp only [fuseCids]
    split
    · exact ih _ h
    · split
      · split
        case h_1 ag' heq =>
          rw [heq] at h
          injection h with h
          subst h
          have hlt : i < fleet.length := (List.getElem?_eq_some.mp heq).1
          exact @ih
            (fleet.set i
              { ag' with knowledge := dictSet ag'.knowledge c (truncPt (avgPos (positionsFor fleet c))) })
            { ag' with knowledge := dictSet ag'.knowledge c (truncPt (avgPos (positionsFor fleet c))) }
            (List.getElem?_set_self hlt)
        case h_2 heq => exact ih _ h
      · exact ih _ h

theorem receiverTurn_length (fail : ℕ → ℚ) (fleet : List Agent) (i : ℕ) :
    (receiverTurn fail fleet i).length = fleet.length :=
  fuseCids_length i _ fleet

theorem receiverTurn_getElem_ne (fail : ℕ → ℚ) (fleet : List Agent) {i j : ℕ}
    (hij : j ≠ i) :
    (receiverTurn fail fleet i)[j]? = fleet[j]? :=
  fuseCids_getElem_ne i _ fleet hij

theorem receiverTurn_shape (fail : ℕ → ℚ) (fleet : List Agent) (i j : ℕ) :
    (fleet[j]? = none → (receiverTurn fail fleet i)[j]? = none) ∧
    (∀ a, fleet[j]? = some a →
      ∃ k, (receiverTurn fail fleet i)[j]? = some { a with knowledge := k }) := by
  by_cases hij : j = i
  · subst hij
    constructor
    · intro hnone
      unfold receiverTurn sharedKeysAt
      rw [hnone]
      exact hnone
    · intro a ha
      exact fuseCids_receiver_shape j _ fleet ha
  · rw [receiverTurn_getElem_ne fail fleet hij]
    constructor
    · exact id
    · intro a ha
      exact ⟨a.knowledge, ha⟩

theorem updateOrder_append (fail : ℕ → ℕ → ℚ) (fleet : List Agent)
    (o1 o2 : List ℕ) :
    updateOrder fail fleet (o1 ++ o2) = updateOrder fail (updateOrder fail fleet o1) o2 :=
  List.foldl_append _ _ o1 o2

theorem updateOrder_shape (fail : ℕ → ℕ → ℚ) (order : List ℕ) (fleet : List Agent) (j : ℕ) :
    (fleet[j]? = none → (updateOrder fail fleet order)[j]? = none) ∧
    (∀ a, fleet[j]? = some a →
      ∃ k, (updateOrder fail fleet order)[j]? = some { a with knowledge := k }) := by
  induction order generalizing fleet with
  | nil => exact ⟨id, fun a ha => ⟨a.knowledge, ha⟩⟩
  | cons p rest ih =>
    constructor
    · intro hnone
      exact (ih (receiverTurn (fail p) fleet p)).1 ((receiverTurn_shape (fail p) fleet p j).1 hnone)
    · intro a ha
      obtain ⟨k, hk⟩ := (receiverTurn_shape (fail p) fleet p j).2 a ha
      obtain ⟨k', hk'⟩ := (ih (receiverTurn (fail p) fleet p)).2 _ hk
      exact ⟨k', hk'⟩

theorem updateOrder_length (fail : ℕ → ℕ → ℚ) (order : List ℕ) (fleet : List Agent) :
    (updateOrder fail fleet order).length = fleet.length := by
  induction order generalizing fleet with
  | nil => rfl
  | cons p rest ih =>
    show (updateOrder fail (receiverTurn (fail p) fleet p) rest).length = _
    rw [ih, receiverTurn_length]

theorem updateOrder_not_mem (fail : ℕ → ℕ → ℚ) (order : List ℕ) (fleet : List Agent)
    {i : ℕ} (hi : i ∉ order) :
    (updateOrder fail fleet order)[i]? = fleet[i]? := by
  induction order generalizing fleet with
  | nil => rfl
  | cons p rest ih =>
    have hip : i ≠ p := fun h => hi (h ▸ List.mem_cons_self p rest)
    have hrest : i ∉ rest := fun h => hi (List.mem_cons_of_mem p h)
    show (updateOrder fail (receiverTurn (fail p) fleet p) rest)[i]? = _
    rw [ih _ hrest, receiverTurn_getElem_ne (fail p) fleet hip]

theorem update_knowledge_receiver_final (fail : ℕ → ℕ → ℚ) (fleet : List Agent)
    {i : ℕ} (hi : i < fleet.length) :
    (update_knowledge fail fleet)[i]?
      = (receiverTurn (fail i) (updateOrder fail fleet (List.range i)) i)[i]? := by
  unfold update_knowledge
  obtain ⟨m, hm⟩ : ∃ m, fleet.length = (i + 1) + m := ⟨fleet.length - (i + 1), by omega⟩
  rw [hm, List.range_add, updateOrder_append]
  rw [updateOrder_not_mem]
  · rw [List.range_succ, updateOrder_append]
    rfl
  · intro hmem
    rcases List.mem_map.mp hmem with ⟨x, _, hx⟩
    omega

/-! ## Knowledge characterization of one receiver's turn -/

theorem positionsFor_set_write (fleet : List Agent) {i : ℕ} {ag : Agent}
    (h : fleet[i]? = some ag) {c cid : ℕ} (hc : c ≠ cid) (v : Pt) :
    positionsFor (fleet.set i { ag with knowledge := dictSet ag.knowledge c v }) cid
      = positionsFor fleet cid := by
  unfold positionsFor
  simp only [List.map_set]
  have hf : ((dictSet ag.knowledge c v).filter (fun e => e.1 == cid)).map (·.2)
      = (ag.knowledge.filter (fun e => e.1 == cid)).map (·.2) := by
    rw [filter_dictSet_ne ag.knowledge hc v]
  rw [hf]
  rw [set_getElem?_self (by rw [List.getElem?_map, h]; rfl)]

theorem knowAt_set_write (fleet : List Agent) {i : ℕ} {ag : Agent}
    (h : fleet[i]? = some ag) {c cid : ℕ} (hc : cid ≠ c) (v : Pt) :
    knowAt (fleet.set i { ag with knowledge := dictSet ag.knowledge c v }) i cid
      = knowAt fleet i cid := by
  unfold knowAt
  rw [List.getElem?_set_self (List.getElem?_eq_some.mp h).1, h]
  exact dictGet_dictSet_ne ag.knowledge hc v

theorem fuseCids_knowAt_not_mem (i : ℕ) (cids : List ℕ) (fleet : List Agent)
    {cid : ℕ} (hc : cid ∉ cids) :
    knowAt (fuseCids fleet i cids) i cid = knowAt fleet i cid := by
  induction cids generalizing fleet with
  | nil => rfl
  | cons c rest ih =>
    have hcc : cid ≠ c := fun h => hc (h ▸ List.mem_cons_self c rest)
    have hcr : cid ∉ rest := fun h => hc (List.mem_cons_of_mem c h)
    simp only [fuseCids]
    rw [ih _ hcr]
    split
    · rfl
    · split
      · split
        case h_1 ag heq => exact knowAt_set_write fleet heq hcc _
        case h_2 => rfl
      · rfl

theorem fuseCids_knowAt_mem (i : ℕ) {cids : List ℕ} (fleet : List Agent)
    (hnd : cids.Nodup) {cid : ℕ} (hmem : cid ∈ cids) (hi : i < fleet.length) :
    knowAt (fuseCids fleet i cids) i cid =
      if positionsFor fleet cid ≠ [] ∧
         fleet.length / 2 ≤ closeCount (positionsFor fleet cid) (avgPos (positionsFor fleet cid))
      then some (truncPt (avgPos (positionsFor fleet cid)))
      else knowAt fleet i cid := by
  induction cids generalizing fleet with
  | nil => cases hmem
  | cons c rest ih =>
    obtain ⟨ag, hag⟩ : ∃ ag, fleet[i]? = some ag :=
      ⟨fleet[i], List.getElem?_eq_some.mpr ⟨hi, rfl⟩⟩
    rcases List.mem_cons.mp hmem with rfl | hmr
    · have hnr : cid ∉ rest := (List.nodup_cons.mp hnd).1
      simp only [fuseCids]
      by_cases hps : positionsFor fleet cid = []
      · rw [if_pos hps, fuseCids_knowAt_not_mem i rest fleet hnr,
          if_neg (fun hand => hand.1 hps)]
      · rw [if_neg hps]
        by_cases hq : fleet.length / 2 ≤
            closeCount (positionsFor fleet cid) (avgPos (positionsFor fleet cid))
        · rw [if_pos hq, hag, fuseCids_knowAt_not_mem i rest _ hnr, if_pos ⟨hps, hq⟩]
          unfold knowAt
          rw [List.getElem?_set_self hi]
          exact dictGet_dictSet_self ag.knowledge cid _
        · rw [if_neg hq, fuseCids_knowAt_not_mem i rest fleet hnr,
            if_neg (fun hand => hq hand.2)]
    · have hcne : c ≠ cid := fun h => (List.nodup_cons.mp hnd).1 (h ▸ hmr)
      have hndr : rest.Nodup := (List.nodup_cons.mp hnd).2
      simp only [fuseCids]
      by_cases hps : positionsFor fleet c = []
      · rw [if_pos hps]
        exact ih fleet hndr hmr hi
      · rw [if_neg hps]
        by_cases hq : fleet.length / 2 ≤
            closeCount (positionsFor fleet c) (avgPos (positionsFor fleet c))
        · rw [if_pos hq, hag]
          set vv : Pt := truncPt (avgPos (positionsFor fleet c)) with hvv
          have hlen : (fleet.set i { ag with knowledge := dictSet ag.knowledge c vv }).length
              = fleet.length := List.length_set fleet i _
          rw [ih _ hndr hmr (by rw [hlen]; exact hi)]
          rw [positionsFor_set_write fleet hag hcne vv, hlen,
            knowAt_set_write fleet hag (fun h => hcne h.symm) vv]
        · rw [if_neg hq]
          exact ih fleet hndr hmr hi

/-! ## The shared-keys dict of a receiver -/

theorem addNewKeys_mem (k : ℕ) (ks acc : List ℕ) :
    k ∈ addNewKeys acc ks ↔ k ∈ acc ∨ k ∈ ks := by
  induction ks generalizing acc with
  | nil => simp [addNewKeys]
  | cons k0 rest ih =>
    show k ∈ List.foldl _ (if acc.contains k0 then acc else acc ++ [k0]) rest ↔ _
    rw [show List.foldl (fun acc k => if acc.contains k then acc else acc ++ [k])
        (if acc.contains k0 then acc else acc ++ [k0]) rest
        = addNewKeys (if acc.contains k0 then acc else acc ++ [k0]) rest from rfl]
    rw [ih]
    by_cases h : acc.contains k0
    · rw [if_pos h]
      have hk0 : k0 ∈ acc := by simpa using h
      simp only [List.mem_cons]
      constructor
      · rintro (ha | hr)
        · exact Or.inl ha
        · exact Or.inr (Or.inr hr)
      · rintro (ha | rfl | hr)
        · exact Or.inl ha
        · exact Or.inl hk0
        · exact Or.inr hr
    · rw [if_neg h]
      simp only [List.mem_append, List.mem_singleton, List.mem_cons]
      tauto

theorem addNewKeys_nodup {acc : List ℕ} (h : acc.Nodup) (ks : List ℕ) :
    (addNewKeys acc ks).Nodup := by
  induction ks generalizing acc with
  | nil => exact h
  | cons k0 rest ih =>
    show (addNewKeys (if acc.contains k0 then acc else acc ++ [k0]) rest).Nodup
    by_cases hc : acc.contains k0
    · rw [if_pos hc]
      exact ih h
    · rw [if_neg hc]
      apply ih
      rw [List.nodup_append]
      refine ⟨h, List.nodup_singleton k0, ?_⟩
      intro a ha hb
      rw [List.mem_singleton] at hb
      subst hb
      exact hc (by simpa using ha)

theorem sharedKeysAt_nodup (fail : ℕ → ℚ) (fleet : List Agent) (i : ℕ) :
    (sharedKeysAt fail fleet i).Nodup := by
  unfold sharedKeysAt
  split
  · exact List.nodup_nil
  case h_2 ag hag =>
    have aux : ∀ (l : List ℕ) (acc : List ℕ), acc.Nodup →
        (l.foldl (fun acc j =>
          match fleet[j]? with
          | some o =>
            if j ≠ i ∧ euclidSq ag.pos o.pos ≤ 25 then addNewKeys acc (reportKeys (fail j) o)
            else acc
          | none => acc) acc).Nodup := by
      intro l
      induction l with
      | nil => exact fun acc h => h
      | cons j0 rest ihl =>
        intro acc hacc
        apply ihl
        show (match fleet[j0]? with
          | some o =>
            if j0 ≠ i ∧ euclidSq ag.pos o.pos ≤ 25 then addNewKeys acc (reportKeys (fail j0) o)
            else acc
          | none => acc).Nodup
        cases hj : fleet[j0]? with
        | none => exact hacc
        | some o =>
          show (if j0 ≠ i ∧ euclidSq ag.pos o.pos ≤ 25
              then addNewKeys acc (reportKeys (fail j0) o) else acc).Nodup
          by_cases hcond : j0 ≠ i ∧ euclidSq ag.pos o.pos ≤ 25
          · rw [if_pos hcond]
            exact addNewKeys_nodup hacc _
          · rw [if_neg hcond]
            exact hacc
    exact aux _ [] List.nodup_nil

theorem sharedKeysAt_mem (fail : ℕ → ℚ) (fleet : List Agent) (i : ℕ)
    {ag : Agent} (hag : fleet[i]? = some ag) (cid : ℕ) :
    cid ∈ sharedKeysAt fail fleet i ↔
      ∃ j o, fleet[j]? = some o ∧ j ≠ i ∧ euclidSq ag.pos o.pos ≤ 25 ∧
        cid ∈ reportKeys (fail j) o := by
  unfold sharedKeysAt
  rw [hag]
  have aux : ∀ (l : List ℕ) (acc : List ℕ),
      (cid ∈ l.foldl (fun acc j =>
        match fleet[j]? with
        | some o =>
          if j ≠ i ∧ euclidSq ag.pos o.pos ≤ 25 then addNewKeys acc (reportKeys (fail j) o)
          else acc
        | none => acc) acc ↔
      cid ∈ acc ∨ ∃ j ∈ l, ∃ o, fleet[j]? = some o ∧ j ≠ i ∧ euclidSq ag.pos o.pos ≤ 25 ∧
        cid ∈ reportKeys (fail j) o) := by
    intro l
    induction l with
    | nil => simp
    | cons j0 rest ihl =>
      intro acc
      rw [List.foldl_cons, ihl]
      have hstep : cid ∈ (match fleet[j0]? with
          | some o =>
            if j0 ≠ i ∧ euclidSq ag.pos o.pos ≤ 25 then addNewKeys acc (reportKeys (fail j0) o)
            else acc
          | none => acc) ↔
          cid ∈ acc ∨ ∃ o, fleet[j0]? = some o ∧ j0 ≠ i ∧ euclidSq ag.pos o.pos ≤ 25 ∧
            cid ∈ reportKeys (fail j0) o := by
        cases hj : fleet[j0]? with
        | none => simp
        | some o =>
          show cid ∈ (if j0 ≠ i ∧ euclidSq ag.pos o.pos ≤ 25
              then addNewKeys acc (reportKeys (fail j0) o) else acc) ↔ _
          by_cases hcond : j0 ≠ i ∧ euclidSq ag.pos o.pos ≤ 25
          · rw [if_pos hcond, addNewKeys_mem]
            constructor
            · rintro (ha | hk)
              · exact Or.inl ha
              · exact Or.inr ⟨o, rfl, hcond.1, hcond.2, hk⟩
            · rintro (ha | ⟨o', ho', h1, h2, hk⟩)
              · exact Or.inl ha
              · injection ho' with ho'
                subst ho'
                exact Or.inr hk
          · rw [if_neg hcond]
            constructor
            · exact Or.inl
            · rintro (ha | ⟨o', ho', h1, h2, hk⟩)
              · exact ha
              · injection ho' with ho'
                subst ho'
                exact absurd ⟨h1, h2⟩ hcond
      rw [hstep]
      simp only [List.mem_cons]
      constructor
      · rintro ((ha | ⟨o, ho, h1, h2, hk⟩) | ⟨j, hj, rest'⟩)
        · exact Or.inl ha
        · exact Or.inr ⟨j0, Or.inl rfl, o, ho, h1, h2, hk⟩
        · exact Or.inr ⟨j, Or.inr hj, rest'⟩
      · rintro (ha | ⟨j, (rfl | hj), rest'⟩)
        · exact Or.inl (Or.inl ha)
        · exact Or.inl (Or.inr rest')
        · exact Or.inr ⟨j, hj, rest'⟩
  rw [aux]
  simp only [List.mem_range, List.not_mem_nil, false_or]
  constructor
  · rintro ⟨j, _, o, ho, h1, h2, hk⟩
    exact ⟨j, o, ho, h1, h2, hk⟩
  · rintro ⟨j, o, ho, h1, h2, hk⟩
    exact ⟨j, (List.getElem?_eq_some.mp ho).1, o, ho, h1, h2, hk⟩

theorem positionsFor_ne_nil_of_shared (fail : ℕ → ℚ) (fleet : List Agent) (i : ℕ)
    {ag : Agent} (hag : fleet[i]? = some ag) {cid : ℕ}
    (h : cid ∈ sharedKeysAt fail fleet i) :
    positionsFor fleet cid ≠ [] := by
  rw [sharedKeysAt_mem fail fleet i hag] at h
  obtain ⟨j, o, hj, hji, hrange, hk⟩ := h
  unfold reportKeys share_knowledge at hk
  have hv : ∃ v, (cid, v) ∈ o.knowledge := by
    split at hk
    · simp at hk
    · rcases List.mem_map.mp hk with ⟨e, he, hfst⟩
      refine ⟨e.2, ?_⟩
      have : (cid, e.2) = e := Prod.ext hfst.symm rfl
      rwa [this]
  obtain ⟨v, hv⟩ := hv
  have hmem : v ∈ positionsFor fleet cid := by
    unfold positionsFor
    rw [List.mem_flatten]
    refine ⟨(o.knowledge.filter (fun e => e.1 == cid)).map (·.2), ?_, ?_⟩
    · exact List.mem_map.mpr ⟨o, List.getElem?_mem hj, rfl⟩
    · exact List.mem_map.mpr ⟨(cid, v), List.mem_filter.mpr ⟨hv, by simp⟩, rfl⟩
  exact List.ne_nil_of_mem hmem

/-! ## C1 — the per-receiver fusion rule of one consensus pass -/

/-- The per-receiver rule of the pass (the working lemma behind C1). -/
theorem update_knowledge_receiver_rule (fail : ℕ → ℕ → ℚ) (fleet : List Agent) (i cid : ℕ)
    (hi : i < fleet.length) :
    knowAt (update_knowledge fail fleet) i cid =
      (let cur := updateOrder fail fleet (List.range i)
       let ps := positionsFor cur cid
       if cid ∈ sharedKeysAt (fail i) cur i ∧
          fleet.length / 2 ≤ closeCount ps (avgPos ps)
       then some (truncPt (avgPos ps))
       else knowAt fleet i cid) := by
  have hcur_i : (updateOrder fail fleet (List.range i))[i]? = fleet[i]? :=
    updateOrder_not_mem fail (List.range i) fleet (by simp)
  have hcur_len : (updateOrder fail fleet (List.range i)).length = fleet.length :=
    updateOrder_length fail (List.range i) fleet
  obtain ⟨ag, hag⟩ : ∃ ag, (updateOrder fail fleet (List.range i))[i]? = some ag := by
    rw [hcur_i]
    exact ⟨fleet[i], List.getElem?_eq_some.mpr ⟨hi, rfl⟩⟩
  have hknow_cur : knowAt (updateOrder fail fleet (List.range i)) i cid
      = knowAt fleet i cid := by
    unfold knowAt
    rw [hcur_i]
  show knowAt (update_knowledge fail fleet) i cid =
      (if cid ∈ sharedKeysAt (fail i) (updateOrder fail fleet (List.range i)) i ∧
          fleet.length / 2 ≤ closeCount (positionsFor (updateOrder fail fleet (List.range i)) cid)
            (avgPos (positionsFor (updateOrder fail fleet (List.range i)) cid))
       then some (truncPt (avgPos (positionsFor (updateOrder fail fleet (List.range i)) cid)))
       else knowAt fleet i cid)
  have h1 : knowAt (update_knowledge fail fleet) i cid
      = knowAt (receiverTurn (fail i) (updateOrder fail fleet (List.range i)) i) i cid := by
    unfold knowAt
    rw [update_knowledge_receiver_final fail fleet hi]
  rw [h1]
  unfold receiverTurn
  by_cases hmem : cid ∈ sharedKeysAt (fail i) (updateOrder fail fleet (List.range i)) i
  · rw [fuseCids_knowAt_mem i _ (sharedKeysAt_nodup (fail i) _ i) hmem
      (by rw [hcur_len]; exact hi)]
    have hne := positionsFor_ne_nil_of_shared (fail i) _ i hag hmem
    rw [hcur_len]
    by_cases hq : fleet.length / 2 ≤
        closeCount (positionsFor (updateOrder fail fleet (List.range i)) cid)
          (avgPos (positionsFor (updateOrder fail fleet (List.range i)) cid))
    · rw [if_pos ⟨hne, hq⟩, if_pos ⟨hmem, hq⟩]
    · rw [if_neg (fun hand => hq hand.2), if_neg (fun hand => hq hand.2), hknow_cur]
  · rw [fuseCids_knowAt_not_mem i _ _ hmem, hknow_cur, if_neg (fun hand => hmem hand.1)]

/-- C1 (amended: the cluster test the source applies is strict,
`distance(p, mean) < 3`, not inclusive `≤ 3`): in one consensus pass, for
receiver `i` and every target-ID `cid` present in the reports it absorbed
from distinct agents within Euclidean distance 5, the engine collects the
coordinate every agent of the fleet holds for `cid` (in the fleet state at
the receiver's turn), takes the coordinate-wise mean, counts the collected
coordinates lying strictly within Euclidean distance 3 of the mean, and
writes the mean truncated toward zero exactly when that count is at least
`⌊fleetSize / 2⌋`; with no quorum — and for every `cid` not in the absorbed
reports — the receiver's existing entry is left unchanged. -/
theorem consensus_fusion_rule (fail : ℕ → ℕ → ℚ) (fleet : List Agent) (i cid : ℕ)
    (hi : i < fleet.length) :
    knowAt (update_knowledge fail fleet) i cid =
      (let cur := updateOrder fail fleet (List.range i)
       let ps := positionsFor cur cid
       if cid ∈ sharedKeysAt (fail i) cur i ∧
          fleet.length / 2 ≤ closeCount ps (avgPos ps)
       then some (truncPt (avgPos ps))
       else knowAt fleet i cid) :=
  update_knowledge_receiver_rule fail fleet i cid hi

/-- A one-agent fleet used by witnesses: no sender is in range, so a pass
leaves its (empty) knowledge untouched. -/
def soloAgent : Agent :=
  { pos := (0, 0) }

theorem consensus_fusion_rule_witness :
    knowAt (update_knowledge (fun _ _ => 0) [soloAgent]) 0 0 = none := by
  have h := consensus_fusion_rule (fun _ _ => 0) [soloAgent] 0 0 (by decide)
  rw [h]
  decide

/-! ## C10 — the frame of a consensus pass -/

/-- C10: a consensus pass never changes any agent's position, battery or
cumulative step count, and receiver `i`'s knowledge can change at key `cid`
only when `cid` appears in a report `share_knowledge` produced during the
pass for `i` from a distinct agent within Euclidean distance 5 of `i`'s
position; every other entry of the receiver is left unchanged. -/
theorem consensus_frame (fail : ℕ → ℕ → ℚ) (fleet : List Agent) (i cid : ℕ)
    (hi : i < fleet.length) :
    ((update_knowledge fail fleet)[i]?.map (·.pos) = fleet[i]?.map (·.pos)) ∧
    ((update_knowledge fail fleet)[i]?.map (·.battery) = fleet[i]?.map (·.battery)) ∧
    ((update_knowledge fail fleet)[i]?.map (·.step) = fleet[i]?.map (·.step)) ∧
    (knowAt (update_knowledge fail fleet) i cid ≠ knowAt fleet i cid →
      ∃ ag j o, fleet[i]? = some ag ∧ j ≠ i ∧
        (updateOrder fail fleet (List.range i))[j]? = some o ∧
        euclidSq ag.pos o.pos ≤ 25 ∧ cid ∈ reportKeys (fail i j) o) := by
  have hsome : fleet[i]? = some fleet[i] := List.getElem?_eq_some.mpr ⟨hi, rfl⟩
  obtain ⟨k, hk⟩ := (updateOrder_shape fail (List.range fleet.length) fleet i).2 _ hsome
  have hshape : (update_knowledge fail fleet)[i]? = some { fleet[i] with knowledge := k } := hk
  refine ⟨?_, ?_, ?_, ?_⟩
  · rw [hshape, hsome]
    rfl
  · rw [hshape, hsome]
    rfl
  · rw [hshape, hsome]
    rfl
  · intro hne
    have hcur_i : (updateOrder fail fleet (List.range i))[i]? = fleet[i]? :=
      updateOrder_not_mem fail (List.range i) fleet (by simp)
    obtain ⟨ag, hag⟩ : ∃ ag, (updateOrder fail fleet (List.range i))[i]? = some ag := by
      rw [hcur_i]
      exact ⟨fleet[i], hsome⟩
    have hknow_cur : knowAt (updateOrder fail fleet (List.range i)) i cid
        = knowAt fleet i cid := by
      unfold knowAt
      rw [hcur_i]
    have h1 : knowAt (update_knowledge fail fleet) i cid
        = knowAt (receiverTurn (fail i) (updateOrder fail fleet (List.range i)) i) i cid := by
      unfold knowAt
      rw [update_knowledge_receiver_final fail fleet hi]
    by_cases hmem : cid ∈ sharedKeysAt (fail i) (updateOrder fail fleet (List.range i)) i
    · rw [sharedKeysAt_mem (fail i) _ i hag] at hmem
      obtain ⟨j, o, hj, hji, hrange, hkey⟩ := hmem
      have hagfleet : fleet[i]? = some ag := by rw [← hcur_i]; exact hag
      exact ⟨ag, j, o, hagfleet, hji, hj, hrange, hkey⟩
    · have heq : knowAt (update_knowledge fail fleet) i cid = knowAt fleet i cid := by
        rw [h1]
        unfold receiverTurn
        rw [fuseCids_knowAt_not_mem i _ _ hmem, hknow_cur]
      exact absurd heq hne

theorem consensus_frame_witness :
    ((update_knowledge (fun _ _ => 0) [soloAgent])[0]?.map (·.pos) = some ((0 : ℤ), (0 : ℤ))) := by
  have h := (consensus_frame (fun _ _ => 0) [soloAgent] 0 0 (by decide)).1
  rw [h]
  decide

/-! ## Evaluation helpers for concrete two-agent fleets -/

theorem share_knowledge_full (q : ℚ) (a : Agent) (h : ¬ a.battery < 20) :
    share_knowledge q a = a.knowledge :=
  if_neg (fun hand => h hand.1)

theorem sharedKeysAt_pair_fst (f : ℕ → ℚ) (A B : Agent) (hB : ¬ B.battery < 20)
    (hrange : euclidSq A.pos B.pos ≤ 25) :
    sharedKeysAt f [A, B] 0 = addNewKeys [] (B.knowledge.map (·.1)) := by
  have h1 : reportKeys (f 1) B = B.knowledge.map (·.1) := by
    unfold reportKeys
    rw [share_knowledge_full _ _ hB]
  show (if (1 : ℕ) ≠ 0 ∧ euclidSq A.pos B.pos ≤ 25
      then addNewKeys [] (reportKeys (f 1) B) else []) = _
  rw [if_pos ⟨one_ne_zero, hrange⟩, h1]

theorem sharedKeysAt_pair_snd (f : ℕ → ℚ) (A B : Agent) (hA : ¬ A.battery < 20)
    (hrange : euclidSq B.pos A.pos ≤ 25) :
    sharedKeysAt f [A, B] 1 = addNewKeys [] (A.knowledge.map (·.1)) := by
  have h0 : reportKeys (f 0) A = A.knowledge.map (·.1) := by
    unfold reportKeys
    rw [share_knowledge_full _ _ hA]
  show (if (1 : ℕ) ≠ 1 ∧ euclidSq B.pos B.pos ≤ 25
      then addNewKeys (if (0 : ℕ) ≠ 1 ∧ euclidSq B.pos A.pos ≤ 25
        then addNewKeys [] (reportKeys (f 0) A) else []) (reportKeys (f 1) B)
      else (if (0 : ℕ) ≠ 1 ∧ euclidSq B.pos A.pos ≤ 25
        then addNewKeys [] (reportKeys (f 0) A) else [])) = _
  rw [if_neg (fun hand => hand.1 rfl), if_pos ⟨zero_ne_one, hrange⟩, h0]

theorem fuseCids_single (fleet : List Agent) (i cid : ℕ) {ag : Agent}
    (hag : fleet[i]? = some ag)
    (hps : ¬ positionsFor fleet cid = [])
    (hq : fleet.length / 2 ≤
      closeCount (positionsFor fleet cid) (avgPos (positionsFor fleet cid))) :
    fuseCids fleet i [cid] = fleet.set i
      { ag with knowledge := dictSet ag.knowledge cid (truncPt (avgPos (positionsFor fleet cid))) } := by
  simp only [fuseCids]
  rw [if_neg hps, if_pos hq, hag]

/-! ## C1's counterexample: the distance-3 test is strict, not inclusive -/

/-- Two full-battery agents in consensus range holding `(0,0)` and `(6,0)`
for target 0: both coordinates lie at Euclidean distance exactly 3 from the
mean `(3,0)`. -/
def cexA1 : Agent :=
  { pos := (0, 0), knowledge := [(0, ((0 : ℤ), (0 : ℤ)))] }

def cexB1 : Agent :=
  { pos := (1, 0), knowledge := [(0, ((6 : ℤ), (0 : ℤ)))] }

def cexFleet1 : List Agent := [cexA1, cexB1]

/-- C1's counterexample.  Target 0 is absorbed by receiver 0, and under the
claim's inclusive reading (distance ≤ 3) both collected coordinates count,
so the quorum `⌊2/2⌋ = 1` is met and the claim demands the truncated mean
`(3,0)` be written.  The engine counts strictly (`< 3`), finds no
coordinate, and leaves the receiver's entry at `(0,0)`. -/
theorem consensus_inclusive_quorum_fails :
    0 ∈ sharedKeysAt (fun _ => 1) cexFleet1 0 ∧
    cexFleet1.length / 2 ≤
      ((positionsFor cexFleet1 0).filter
        (fun p => qdistSq p (avgPos (positionsFor cexFleet1 0)) ≤ 9)).length ∧
    truncPt (avgPos (positionsFor cexFleet1 0)) = (3, 0) ∧
    knowAt (update_knowledge (fun _ _ => 1) cexFleet1) 0 0 = some (0, 0) ∧
    ((0 : ℤ), (0 : ℤ)) ≠ ((3 : ℤ), (0 : ℤ)) := by
  have hps : positionsFor cexFleet1 0 = [((0 : ℤ), (0 : ℤ)), ((6 : ℤ), (0 : ℤ))] := by decide
  have havg : avgPos [((0 : ℤ), (0 : ℤ)), ((6 : ℤ), (0 : ℤ))] = (3, 0) := by
    unfold avgPos
    norm_num
  have hB : ¬ cexB1.battery < 20 := by norm_num [cexB1]
  refine ⟨?_, ?_, ?_, ?_, by decide⟩
  · rw [show cexFleet1 = [cexA1, cexB1] from rfl,
      sharedKeysAt_pair_fst (fun _ => 1) cexA1 cexB1 hB (by decide)]
    decide
  · rw [hps, havg]
    norm_num [cexFleet1, qdistSq, List.filter]
  · rw [hps, havg]
    unfold truncPt
    norm_num [ratTrunc, Prod.ext_iff]
  · rw [update_knowledge_receiver_rule (fun _ _ => 1) cexFleet1 0 0 (by decide)]
    show (if 0 ∈ sharedKeysAt (fun _ => 1) cexFleet1 0 ∧
        cexFleet1.length / 2 ≤ closeCount (positionsFor cexFleet1 0)
          (avgPos (positionsFor cexFleet1 0))
        then some (truncPt (avgPos (positionsFor cexFleet1 0)))
        else knowAt cexFleet1 0 0) = some (0, 0)
    rw [if_neg]
    · decide
    · rintro ⟨-, hq⟩
      have hzero : closeCount [((0 : ℤ), (0 : ℤ)), ((6 : ℤ), (0 : ℤ))] (3, 0) = 0 := by
        unfold closeCount
        norm_num [qdistSq, List.filter]
      rw [hps, havg, hzero] at hq
      exact absurd hq (by decide)

/-! ## C2 — the pass is sequential, not snapshot-based -/

/-- Two full-battery agents in consensus range holding `(0,0)` and `(5,0)`
for target 0: the cluster test passes, so fused writes occur, and a later
receiver can observe an earlier receiver's write of the same pass. -/
def seqA : Agent :=
  { pos := (0, 0), knowledge := [(0, ((0 : ℤ), (0 : ℤ)))] }

def seqB : Agent :=
  { pos := (1, 0), knowledge := [(0, ((5 : ℤ), (0 : ℤ)))] }

def fleetC2 : List Agent := [seqA, seqB]

/-- `seqA` after a fused write of `(2,0)` (the truncated mean of `(0,0)` and
`(5,0)`). -/
def seqAW : Agent :=
  { pos := (0, 0), knowledge := [(0, ((2 : ℤ), (0 : ℤ)))] }

/-- `seqB` after a fused write of `(2,0)`. -/
def seqBW : Agent :=
  { pos := (1, 0), knowledge := [(0, ((2 : ℤ), (0 : ℤ)))] }

/-- `seqB` after a fused write of `(3,0)` (the truncated mean of `(2,0)` and
`(5,0)` — the cascaded value). -/
def seqBW3 : Agent :=
  { pos := (1, 0), knowledge := [(0, ((3 : ℤ), (0 : ℤ)))] }

/-- `seqA` after a fused write of `(1,0)` (the truncated mean of `(0,0)` and
`(2,0)` — the cascaded value of the reversed order). -/
def seqAW1 : Agent :=
  { pos := (0, 0), knowledge := [(0, ((1 : ℤ), (0 : ℤ)))] }

theorem fleetC2_turn0 : receiverTurn (fun _ => 1) fleetC2 0 = [seqAW, seqB] := by
  have hps : positionsFor fleetC2 0 = [((0 : ℤ), (0 : ℤ)), ((5 : ℤ), (0 : ℤ))] := by decide
  have havg : avgPos [((0 : ℤ), (0 : ℤ)), ((5 : ℤ), (0 : ℤ))] = (5/2, 0) := by
    unfold avgPos
    norm_num
  have hcc : closeCount [((0 : ℤ), (0 : ℤ)), ((5 : ℤ), (0 : ℤ))] (5/2, 0) = 2 := by
    unfold closeCount
    norm_num [qdistSq, List.filter]
  have htr : truncPt (avgPos (positionsFor fleetC2 0)) = ((2 : ℤ), (0 : ℤ)) := by
    rw [hps, havg]
    unfold truncPt
    norm_num [ratTrunc, Prod.ext_iff]
  have hB : ¬ seqB.battery < 20 := by norm_num [seqB]
  unfold receiverTurn
  rw [show fleetC2 = [seqA, seqB] from rfl,
    sharedKeysAt_pair_fst (fun _ => 1) seqA seqB hB (by decide),
    show addNewKeys [] (seqB.knowledge.map (·.1)) = [0] from by decide]
  rw [fuseCids_single [seqA, seqB] 0 0 rfl (by decide) ?hq]
  case hq =>
    rw [show positionsFor [seqA, seqB] 0 = positionsFor fleetC2 0 from rfl, hps, havg, hcc]
    decide
  rw [show positionsFor [seqA, seqB] 0 = positionsFor fleetC2 0 from rfl, htr]
  rfl

theorem fleetC2_turn1 : receiverTurn (fun _ => 1) fleetC2 1 = [seqA, seqBW] := by
  have hps : positionsFor fleetC2 0 = [((0 : ℤ), (0 : ℤ)), ((5 : ℤ), (0 : ℤ))] := by decide
  have havg : avgPos [((0 : ℤ), (0 : ℤ)), ((5 : ℤ), (0 : ℤ))] = (5/2, 0) := by
    unfold avgPos
    norm_num
  have hcc : closeCount [((0 : ℤ), (0 : ℤ)), ((5 : ℤ), (0 : ℤ))] (5/2, 0) = 2 := by
    unfold closeCount
    norm_num [qdistSq, List.filter]
  have htr : truncPt (avgPos (positionsFor fleetC2 0)) = ((2 : ℤ), (0 : ℤ)) := by
    rw [hps, havg]
    unfold truncPt
    norm_num [ratTrunc, Prod.ext_iff]
  have hA : ¬ seqA.battery < 20 := by norm_num [seqA]
  unfold receiverTurn
  rw [show fleetC2 = [seqA, seqB] from rfl,
    sharedKeysAt_pair_snd (fun _ => 1) seqA seqB hA (by decide),
    show addNewKeys [] (seqA.knowledge.map (·.1)) = [0] from by decide]
  rw [fuseCids_single [seqA, seqB] 1 0 rfl (by decide) ?hq]
  case hq =>
    rw [show positionsFor [seqA, seqB] 0 = positionsFor fleetC2 0 from rfl, hps, havg, hcc]
    decide
  rw [show positionsFor [seqA, seqB] 0 = positionsFor fleetC2 0 from rfl, htr]
  rfl

theorem fleetC2W_turn1 : receiverTurn (fun _ => 1) [seqAW, seqB] 1 = [seqAW, seqBW3] := by
  have hps : positionsFor [seqAW, seqB] 0 = [((2 : ℤ), (0 : ℤ)), ((5 : ℤ), (0 : ℤ))] := by decide
  have havg : avgPos [((2 : ℤ), (0 : ℤ)), ((5 : ℤ), (0 : ℤ))] = (7/2, 0) := by
    unfold avgPos
    norm_num
  have hcc : closeCount [((2 : ℤ), (0 : ℤ)), ((5 : ℤ), (0 : ℤ))] (7/2, 0) = 2 := by
    unfold closeCount
    norm_num [qdistSq, List.filter]
  have htr : truncPt (avgPos (positionsFor [seqAW, seqB] 0)) = ((3 : ℤ), (0 : ℤ)) := by
    rw [hps, havg]
    unfold truncPt
    norm_num [ratTrunc, Prod.ext_iff]
  have hA : ¬ seqAW.battery < 20 := by norm_num [seqAW]
  unfold receiverTurn
  rw [sharedKeysAt_pair_snd (fun _ => 1) seqAW seqB hA (by decide),
    show addNewKeys [] (seqAW.knowledge.map (·.1)) = [0] from by decide]
  rw [fuseCids_single [seqAW, seqB] 1 0 rfl (by decide) ?hq]
  case hq =>
    rw [hps, havg, hcc]
    decide
  rw [htr]
  rfl

theorem fleetBW_turn0 : receiverTurn (fun _ => 1) [seqA, seqBW] 0 = [seqAW1, seqBW] := by
  have hps : positionsFor [seqA, seqBW] 0 = [((0 : ℤ), (0 : ℤ)), ((2 : ℤ), (0 : ℤ))] := by decide
  have havg : avgPos [((0 : ℤ), (0 : ℤ)), ((2 : ℤ), (0 : ℤ))] = (1, 0) := by
    unfold avgPos
    norm_num
  have hcc : closeCount [((0 : ℤ), (0 : ℤ)), ((2 : ℤ), (0 : ℤ))] (1, 0) = 2 := by
    unfold closeCount
    norm_num [qdistSq, List.filter]
  have htr : truncPt (avgPos (positionsFor [seqA, seqBW] 0)) = ((1 : ℤ), (0 : ℤ)) := by
    rw [hps, havg]
    unfold truncPt
    norm_num [ratTrunc, Prod.ext_iff]
  have hB : ¬ seqBW.battery < 20 := by norm_num [seqBW]
  unfold receiverTurn
  rw [sharedKeysAt_pair_fst (fun _ => 1) seqA seqBW hB (by decide),
    show addNewKeys [] (seqBW.knowledge.map (·.1)) = [0] from by decide]
  rw [fuseCids_single [seqA, seqBW] 0 0 rfl (by decide) ?hq]
  case hq =>
    rw [hps, havg, hcc]
    decide
  rw [htr]
  rfl

theorem fleetC2_sequential :
    update_knowledge (fun _ _ => 1) fleetC2 = [seqAW, seqBW3] := by
  show receiverTurn (fun _ => 1) (receiverTurn (fun _ => 1) fleetC2 0) 1 = _
  rw [fleetC2_turn0, fleetC2W_turn1]

theorem fleetC2_snapshot :
    update_knowledge_snapshot (fun _ _ => 1) fleetC2 = [seqAW, seqBW] := by
  have hstep0 : (receiverTurn (fun _ => 1) fleetC2 0)[0]? = some seqAW := by
    rw [fleetC2_turn0]
    rfl
  have hstep1 : (receiverTurn (fun _ => 1) fleetC2 1)[1]? = some seqBW := by
    rw [fleetC2_turn1]
    rfl
  unfold update_knowledge_snapshot
  simp only [show List.range fleetC2.length = [0, 1] from rfl, List.foldl_cons,
    List.foldl_nil]
  simp only [hstep0, hstep1]
  rfl

/-- C2's counterexample: on `fleetC2` the sequential pass the source runs
gives receiver 1 the cascaded value `(3,0)` (it fused against receiver 0's
same-pass write `(2,0)`), while the snapshot semantics the claim asserts
gives `(2,0)`. -/
theorem consensus_snapshot_differs :
    knowAt (update_knowledge (fun _ _ => 1) fleetC2) 1 0 = some (3, 0) ∧
    knowAt (update_knowledge_snapshot (fun _ _ => 1) fleetC2) 1 0 = some (2, 0) ∧
    ((3 : ℤ), (0 : ℤ)) ≠ ((2 : ℤ), (0 : ℤ)) := by
  refine ⟨?_, ?_, by decide⟩
  · rw [fleetC2_sequential]
    decide
  · rw [fleetC2_snapshot]
    decide

/-- C2 (amended): one call of the consensus engine processes receiving
agents sequentially in agent-list order, each receiver's fusion reading the
fleet's current knowledge — including writes already made in the same pass —
and the written values can therefore depend on the order in which the
receiving agents are processed (on `fleetC2`, receiver 0 ends with `(2,0)`
when processed first and `(1,0)` when processed second). -/
theorem consensus_order_dependent :
    (∀ (fail : ℕ → ℕ → ℚ) (fleet : List Agent),
      update_knowledge fail fleet =
        (List.range fleet.length).foldl (fun acc i => receiverTurn (fail i) acc i) fleet) ∧
    knowAt (updateOrder (fun _ _ => 1) fleetC2 [0, 1]) 0 0 = some (2, 0) ∧
    knowAt (updateOrder (fun _ _ => 1) fleetC2 [1, 0]) 0 0 = some (1, 0) := by
  refine ⟨fun fail fleet => rfl, ?_, ?_⟩
  · show knowAt (receiverTurn (fun _ => 1) (receiverTurn (fun _ => 1) fleetC2 0) 1) 0 0 = _
    rw [fleetC2_turn0, fleetC2W_turn1]
    decide
  · show knowAt (receiverTurn (fun _ => 1) (receiverTurn (fun _ => 1) fleetC2 1) 0) 0 0 = _
    rw [fleetC2_turn1, fleetBW_turn0]
    decide

/-! ## C4 — boundedness of all positions -/

theorem clamp_pair_bounds {size : ℤ} (h : 1 ≤ size) (v w : ℤ) :
    inBoundsPt size (clampCoord size v, clampCoord size w) :=
  ⟨(clampCoord_bounds h v).1, (clampCoord_bounds h v).2,
   (clampCoord_bounds h w).1, (clampCoord_bounds h w).2⟩

theorem wind_axis_bounds {size x : ℤ} (hsize : 1 ≤ size) (hx0 : 0 ≤ x)
    (hx1 : x ≤ size - 1) {w u : ℚ} (hw : |w| ≤ 1/2) (hu0 : 0 ≤ u) (hu1 : u ≤ 1/2) :
    0 ≤ max 0 (min (ratTrunc ((x : ℚ) + w * u)) 19) ∧
    max 0 (min (ratTrunc ((x : ℚ) + w * u)) 19) ≤ size - 1 := by
  have hwu : |w * u| ≤ 1/2 := by
    rw [abs_mul]
    have h1 : |w| * |u| ≤ (1/2) * (1/2) := by
      apply mul_le_mul hw ?_ (abs_nonneg u) (by norm_num)
      rw [abs_of_nonneg hu0]
      exact hu1
    linarith
  have hlo : -(1/2 : ℚ) ≤ w * u := (abs_le.mp hwu).1
  have hhi : w * u ≤ 1/2 := (abs_le.mp hwu).2
  have hxq : (0 : ℚ) ≤ (x : ℚ) := by exact_mod_cast hx0
  have ht0 : 0 ≤ ratTrunc ((x : ℚ) + w * u) := by
    apply ratTrunc_nonneg
    linarith
  have ht1 : ratTrunc ((x : ℚ) + w * u) ≤ x := by
    apply ratTrunc_le hx0
    linarith
  refine ⟨le_max_left 0 _, ?_⟩
  have hmin : min (ratTrunc ((x : ℚ) + w * u)) 19 ≤ ratTrunc ((x : ℚ) + w * u) :=
    min_le_left _ _
  omega

theorem apply_wind_bounds (wdx wdy u1 u2 : ℚ) (a : Agent) (size : ℤ)
    (hsize : 1 ≤ size) (hb : inBoundsPt size a.pos)
    (hw1 : |wdx| ≤ 1/2) (hw2 : |wdy| ≤ 1/2)
    (hu10 : 0 ≤ u1) (hu11 : u1 ≤ 1/2) (hu20 : 0 ≤ u2) (hu21 : u2 ≤ 1/2) :
    inBoundsPt size (apply_wind wdx wdy u1 u2 a).pos := by
  obtain ⟨h1, h2, h3, h4⟩ := hb
  unfold apply_wind
  split
  · obtain ⟨p1, p2⟩ := wind_axis_bounds hsize h1 h2 hw1 hu10 hu11
    obtain ⟨q1, q2⟩ := wind_axis_bounds hsize h3 h4 hw2 hu20 hu21
    exact ⟨p1, p2, q1, q2⟩
  · exact ⟨h1, h2, h3, h4⟩

theorem move_spiral_pos_clamped (env : Env) (a : Agent) :
    ∃ v w, (move_spiral env a).pos = (clampCoord env.size v, clampCoord env.size w) := by
  unfold move_spiral
  dsimp only
  split
  · split
    · exact ⟨_, _, rfl⟩
    · exact ⟨_, _, rfl⟩
  · split
    · exact ⟨_, _, rfl⟩
    · exact ⟨_, _, rfl⟩

theorem move_pos_cases (env : Env) (r : MoveRand) (a : Agent) :
    (move env r a).pos = a.pos ∨
    ∃ v w, (move env r a).pos = (clampCoord env.size v, clampCoord env.size w) := by
  unfold move
  dsimp only
  split
  · split
    · exact Or.inr ⟨_, _, rfl⟩
    · rw [observe_pos]
      split
      · unfold move_toward_target
        split
        · exact Or.inr (move_spiral_pos_clamped env _)
        · exact Or.inr ⟨_, _, rfl⟩
      · exact Or.inr (move_spiral_pos_clamped env _)
  · exact Or.inl rfl

theorem update_knowledge_pos (fail : ℕ → ℕ → ℚ) (fleet : List Agent) (i : ℕ) :
    ((update_knowledge fail fleet)[i]?).map (·.pos) = (fleet[i]?).map (·.pos) := by
  cases h : fleet[i]? with
  | none =>
    unfold update_knowledge
    rw [(updateOrder_shape fail (List.range fleet.length) fleet i).1 h]
  | some a =>
    obtain ⟨k, hk⟩ := (updateOrder_shape fail (List.range fleet.length) fleet i).2 a h
    unfold update_knowledge
    rw [hk]
    rfl

/-- C4: every operation of a tick keeps every coordinate inside
`[0, size-1]`.  Agent movement (all three states) and customer jitter clamp
to the grid; the consensus pass does not move anyone; and `apply_wind` —
whose clamp is hardcoded to `[0, 19]` — stays in bounds because the driver's
wind offset per axis is at most `wind_strength * uniform(0, 0.5)` with
`wind_strength ≤ 0.5` (visualize.py clamps it), so the truncated coordinate
moves by at most one cell toward zero and never above its old value. -/
theorem positions_stay_in_bounds (env : Env) (r : MoveRand)
    (wdx wdy u1 u2 : ℚ) (draw : ℕ → ℤ × ℤ) (fail : ℕ → ℕ → ℚ)
    (fleet : List Agent) (a : Agent)
    (hsize : 1 ≤ env.size)
    (hw1 : |wdx| ≤ 1/2) (hw2 : |wdy| ≤ 1/2)
    (hu10 : 0 ≤ u1) (hu11 : u1 ≤ 1/2) (hu20 : 0 ≤ u2) (hu21 : u2 ≤ 1/2) :
    (inBoundsPt env.size a.pos → inBoundsPt env.size (move env r a).pos) ∧
    (inBoundsPt env.size a.pos → inBoundsPt env.size (apply_wind wdx wdy u1 u2 a).pos) ∧
    ((∀ c ∈ env.customers, inBoundsPt env.size c) →
      ∀ c ∈ (move_customers draw env).customers, inBoundsPt env.size c) ∧
    (∀ i : ℕ, ((update_knowledge fail fleet)[i]?).map (·.pos) = (fleet[i]?).map (·.pos)) := by
  refine ⟨?_, ?_, ?_, update_knowledge_pos fail fleet⟩
  · intro hb
    rcases move_pos_cases env r a with h | ⟨v, w, h⟩
    · rw [h]
      exact hb
    · rw [h]
      exact clamp_pair_bounds hsize v w
  · intro hb
    exact apply_wind_bounds wdx wdy u1 u2 a env.size hsize hb hw1 hw2 hu10 hu11 hu20 hu21
  · intro hb
    unfold move_customers
    split
    · intro c hc
      rcases List.mem_map.mp hc with ⟨ic, _, rfl⟩
      exact clamp_pair_bounds hsize _ _
    · exact hb

/-- A fixed bundle of draws for witnesses that exercise `move`. -/
def anyMoveRand : MoveRand :=
  { drain_noise := 1, byz_draw := 1, rand_dx := 0, rand_dy := 0,
    seek := { target_angle := 0, course := (0, 0), jitter_draw := 1, jitter := (0, 0) },
    obs := { lie_draw := fun _ => 1, dx := fun _ => 0, dy := fun _ => 0 } }

theorem positions_stay_in_bounds_witness :
    inBoundsPt (20 : ℤ) ((1 : ℤ), (0 : ℤ)) ∧ inBoundsPt (20 : ℤ) ((19 : ℤ), (18 : ℤ)) := by
  have h := (positions_stay_in_bounds { size := 20, customers := [(0, 0), (19, 19)] }
    anyMoveRand 0 0 0 0 (fun _ => (1, -1)) (fun _ _ => 0) [] soloAgent
    (by norm_num) (by norm_num) (by norm_num) (by norm_num) (by norm_num)
    (by norm_num) (by norm_num)).2.2.1 (by decide)
  exact ⟨h ((1 : ℤ), (0 : ℤ)) (by decide), h ((19 : ℤ), (18 : ℤ)) (by decide)⟩

/-! ## C6 — the Byzantine distortion bound -/

theorem observe_knowledge_get (env : Env) (r : ObsRand) (a : Agent) {i : ℕ} {c : Pt}
    (hc : env.customers[i]? = some c) :
    dictGet (observe env r a).knowledge i =
      if euclidSq c a.pos ≤ 9 then some (observeValue env r a i c)
      else dictGet a.knowledge i := by
  have frame : ∀ (l : List (ℕ × Pt)) (m : Knowledge), (∀ x ∈ l, x.1 ≠ i) →
      dictGet (l.foldl (fun m ic =>
        if euclidSq ic.2 a.pos ≤ 9 then dictSet m ic.1 (observeValue env r a ic.1 ic.2)
        else m) m) i = dictGet m i := by
    intro l
    induction l with
    | nil => exact fun m _ => rfl
    | cons ic rest ih =>
      intro m hne
      rw [List.foldl_cons, ih _ (fun x hx => hne x (List.mem_cons_of_mem ic hx))]
      have hic : ic.1 ≠ i := hne ic (List.mem_cons_self ic rest)
      split
      · exact dictGet_dictSet_ne m (fun h => hic h.symm) _
      · rfl
  have main : ∀ (l : List (ℕ × Pt)) (m : Knowledge), (i, c) ∈ l →
      (l.map Prod.fst).Nodup →
      dictGet (l.foldl (fun m ic =>
        if euclidSq ic.2 a.pos ≤ 9 then dictSet m ic.1 (observeValue env r a ic.1 ic.2)
        else m) m) i =
      if euclidSq c a.pos ≤ 9 then some (observeValue env r a i c) else dictGet m i := by
    intro l
    induction l with
    | nil => intro m hmem; cases hmem
    | cons ic rest ih =>
      intro m hmem hnd
      rw [List.map_cons] at hnd
      obtain ⟨hhead, htail⟩ := List.nodup_cons.mp hnd
      rcases List.mem_cons.mp hmem with heq | hmr
      · subst heq
        have hrest : ∀ x ∈ rest, x.1 ≠ i := by
          intro x hx hxi
          exact hhead (List.mem_map.mpr ⟨x, hx, hxi⟩)
        rw [List.foldl_cons, frame rest _ hrest]
        split
        · exact dictGet_dictSet_self m i _
        · rfl
      · have hic : ic.1 ≠ i := by
          intro hxi
          exact hhead (hxi ▸ List.mem_map.mpr ⟨(i, c), hmr, rfl⟩)
        rw [List.foldl_cons, ih _ hmr htail]
        have hm : dictGet (if euclidSq ic.2 a.pos ≤ 9
            then dictSet m ic.1 (observeValue env r a ic.1 ic.2) else m) i
            = dictGet m i := by
          split
          · exact dictGet_dictSet_ne m (fun h => hic h.symm) _
          · rfl
        rw [hm]
  unfold observe
  have henum : ((i, c) : ℕ × Pt) ∈ env.customers.enum := List.mem_enum_iff_getElem?.mpr hc
  have hnd : (env.customers.enum.map Prod.fst).Nodup := by
    rw [List.enum_map_fst]
    exact List.nodup_range _
  exact main env.customers.enum a.knowledge henum hnd

theorem clamp_distortion {size c d : ℤ} (h0 : 0 ≤ c) (h1 : c ≤ size - 1)
    (hd0 : -5 ≤ d) (hd1 : d ≤ 5) :
    |clampCoord size (c + d) - c| ≤ 5 ∧ 0 ≤ clampCoord size (c + d) ∧
      clampCoord size (c + d) ≤ size - 1 := by
  unfold clampCoord
  refine ⟨?_, ?_, ?_⟩
  · rw [abs_le]
    omega
  · omega
  · omega

/-- C6: when a Byzantine agent senses an in-range target whose true
coordinate lies within the grid and the lie roll succeeds, the falsified
coordinate it stores differs from the true one by at most 5 on each axis
(the `randint(-5, 5)` draws bound the raw offset, and clamping toward the
interval containing the true coordinate only shrinks the deviation) and both
of its components lie within `[0, size-1]`. -/
theorem byzantine_distortion_bounded (env : Env) (r : ObsRand) (a : Agent) (i : ℕ)
    {c : Pt}
    (hbyz : a.is_byzantine = true)
    (hc : env.customers[i]? = some c)
    (hin : euclidSq c a.pos ≤ 9)
    (hlie : r.lie_draw i < a.lie_probability)
    (hcb : inBoundsPt env.size c)
    (hdx0 : -5 ≤ r.dx i) (hdx1 : r.dx i ≤ 5)
    (hdy0 : -5 ≤ r.dy i) (hdy1 : r.dy i ≤ 5) :
    ∃ v, dictGet (observe env r a).knowledge i = some v ∧
      |v.1 - c.1| ≤ 5 ∧ |v.2 - c.2| ≤ 5 ∧ inBoundsPt env.size v := by
  obtain ⟨hc1, hc2, hc3, hc4⟩ := hcb
  rw [observe_knowledge_get env r a hc, if_pos hin]
  refine ⟨observeValue env r a i c, rfl, ?_⟩
  unfold observeValue
  rw [if_neg (by rw [hbyz]; exact fun h => Bool.noConfusion h), if_pos hlie]
  obtain ⟨p1, p2, p3⟩ := clamp_distortion hc1 hc2 hdx0 hdx1
  obtain ⟨q1, q2, q3⟩ := clamp_distortion hc3 hc4 hdy0 hdy1
  exact ⟨p1, q1, p2, p3, q2, q3⟩

/-- A Byzantine agent sitting on the single customer of a 20-grid. -/
def wByz : Agent :=
  { pos := (10, 10), is_byzantine := true }

def wEnv : Env :=
  { size := 20, customers := [(10, 10)] }

/-- Draws for the Byzantine-distortion witness: the lie roll succeeds and the
distortion is `(+5, -5)`. -/
def wObs : ObsRand :=
  { lie_draw := fun _ => 0, dx := fun _ => 5, dy := fun _ => -5 }

theorem byzantine_distortion_bounded_witness :
    ∃ v, dictGet (observe wEnv wObs wByz).knowledge 0 = some v ∧
      |v.1 - 10| ≤ 5 ∧ |v.2 - 10| ≤ 5 ∧ inBoundsPt wEnv.size v :=
  byzantine_distortion_bounded wEnv wObs wByz 0 rfl rfl (by decide)
    (by norm_num [wObs, wByz]) (by decide) (by decide) (by decide) (by decide) (by decide)

/-! ## C8 — sensing after movement -/

/-- C8 (amended): when the battery survives the drain, an agent that takes
the target-seeking or spiral-search branch re-runs sensing against its
post-move position; the Byzantine random-walk branch returns at once and
does not re-sense that tick (its knowledge is exactly what it was before
the move). -/
theorem sensing_after_movement (env : Env) (r : MoveRand) (a : Agent) :
    (0 < (drain_battery r.drain_noise a).battery →
      ¬ ((drain_battery r.drain_noise a).is_byzantine = true ∧ r.byz_draw < 1/10) →
      move env r a = observe env r.obs
        (if (drain_battery r.drain_noise a).knowledge ≠ [] ∧
            (drain_battery r.drain_noise a).is_byzantine = false
         then move_toward_target env r.seek (move_spiral env) (drain_battery r.drain_noise a)
         else move_spiral env (drain_battery r.drain_noise a))) ∧
    (0 < (drain_battery r.drain_noise a).battery →
      (drain_battery r.drain_noise a).is_byzantine = true ∧ r.byz_draw < 1/10 →
      move env r a = move_random env r.rand_dx r.rand_dy (drain_battery r.drain_noise a) ∧
      (move env r a).knowledge = a.knowledge) := by
  constructor
  · intro hbat hnb
    unfold move
    dsimp only
    rw [if_pos hbat, if_neg hnb]
  · intro hbat hb
    have hmove : move env r a
        = move_random env r.rand_dx r.rand_dy (drain_battery r.drain_noise a) := by
      unfold move
      dsimp only
      rw [if_pos hbat, if_pos hb]
    exact ⟨hmove, by rw [hmove]; rfl⟩

/-- The environment and draws of C8's counterexample: a full-battery
Byzantine agent standing on the only customer rolls the 10% erratic-move
draw (`byz_draw = 0 < 0.1`) and steps `(0,0)`. -/
def c8Env : Env :=
  { size := 20, customers := [((2 : ℤ), (2 : ℤ))] }

def c8Agent : Agent :=
  { pos := (2, 2), is_byzantine := true }

def c8Rand : MoveRand :=
  { drain_noise := 1, byz_draw := 0, rand_dx := 0, rand_dy := 0,
    seek := { target_angle := 0, course := (0, 0), jitter_draw := 1, jitter := (0, 0) },
    obs := { lie_draw := fun _ => 1, dx := fun _ => 0, dy := fun _ => 0 } }

/-- C8's counterexample: in the Byzantine random-walk branch the mover ends
its tick with empty knowledge although a customer sits within sensing range
of its post-move position — the sensing pass the claim promises (which would
have recorded entry 0, here the true coordinate `(2,2)`) never ran. -/
theorem random_walk_skips_sensing :
    (move c8Env c8Rand c8Agent).knowledge = [] ∧
    euclidSq ((2 : ℤ), (2 : ℤ)) (move c8Env c8Rand c8Agent).pos ≤ 9 ∧
    dictGet (observe c8Env c8Rand.obs (move c8Env c8Rand c8Agent)).knowledge 0
      = some (2, 2) := by
  have hbat : 0 < (drain_battery (1 : ℚ) c8Agent).battery := by
    unfold drain_battery
    show (0 : ℚ) < max 0 (c8Agent.battery - c8Agent.battery_drain_rate *
      (c8Agent.current_speed / c8Agent.max_speed) * 1)
    have hvv : (0 : ℚ) < c8Agent.battery - c8Agent.battery_drain_rate *
        (c8Agent.current_speed / c8Agent.max_speed) * 1 := by
      norm_num [c8Agent]
    exact lt_max_of_lt_right hvv
  have hmove : move c8Env c8Rand c8Agent
      = move_random c8Env 0 0 (drain_battery 1 c8Agent) := by
    unfold move
    dsimp only
    simp only [c8Rand]
    rw [if_pos hbat, if_pos ⟨rfl, by norm_num⟩]
  refine ⟨?_, ?_, ?_⟩
  · rw [hmove]
    rfl
  · rw [hmove]
    decide
  · rw [hmove]
    rw [observe_knowledge_get c8Env c8Rand.obs _
      (show c8Env.customers[0]? = some (2, 2) from rfl)]
    rw [if_pos (by decide)]
    unfold observeValue
    rw [if_neg (fun h => Bool.noConfusion h), if_neg]
    show ¬ ((1 : ℚ) < (7 : ℚ)/10)
    norm_num

/-! ## C5 — the competitive ratio -/

theorem euclidSq_nonneg (p q : Pt) : 0 ≤ euclidSq p q :=
  add_nonneg (sq_nonneg _) (sq_nonneg _)

theorem euclidSq_eq_zero_iff (p q : Pt) : euclidSq p q = 0 ↔ p = q := by
  unfold euclidSq
  rw [add_eq_zero_iff_of_nonneg (sq_nonneg _) (sq_nonneg _),
    pow_eq_zero_iff (two_ne_zero), pow_eq_zero_iff (two_ne_zero)]
  constructor
  · rintro ⟨h1, h2⟩
    have hp1 : p.1 = q.1 := by omega
    have hp2 : p.2 = q.2 := by omega
    exact Prod.ext hp1 hp2
  · rintro rfl
    exact ⟨by ring, by ring⟩

theorem distR_nonneg (p c : Pt) : 0 ≤ distR p c :=
  Real.sqrt_nonneg _

theorem distR_eq_zero_iff (p c : Pt) : distR p c = 0 ↔ p = c := by
  unfold distR
  rw [Real.sqrt_eq_zero']
  rw [show ((euclidSq p c : ℤ) : ℝ) ≤ 0 ↔ euclidSq p c ≤ 0 from Int.cast_nonpos]
  constructor
  · intro h
    exact (euclidSq_eq_zero_iff p c).mp (le_antisymm h (euclidSq_nonneg p c))
  · intro h
    rw [(euclidSq_eq_zero_iff p c).mpr h]

theorem foldl_min_distR_nonneg (p : Pt) (l : List Pt) {x : ℝ} (hx : 0 ≤ x) :
    0 ≤ l.foldl (fun m c => min m (distR p c)) x := by
  induction l generalizing x with
  | nil => exact hx
  | cons c rest ih =>
    exact ih (le_min hx (distR_nonneg p c))

theorem foldl_min_distR_eq_zero_iff (p : Pt) (l : List Pt) {x : ℝ} (hx : 0 ≤ x) :
    (l.foldl (fun m c => min m (distR p c)) x = 0 ↔ x = 0 ∨ ∃ c ∈ l, distR p c = 0) := by
  induction l generalizing x with
  | nil => simp
  | cons c rest ih =>
    rw [List.foldl_cons, ih (le_min hx (distR_nonneg p c))]
    have hmin : min x (distR p c) = 0 ↔ x = 0 ∨ distR p c = 0 := by
      constructor
      · intro h
        rcases le_total x (distR p c) with hle | hle
        · exact Or.inl (by rw [min_eq_left hle] at h; exact h)
        · exact Or.inr (by rw [min_eq_right hle] at h; exact h)
      · rintro (h | h)
        · exact le_antisymm (h ▸ min_le_left x _) (le_min hx (distR_nonneg p c) : (0:ℝ) ≤ _)
        · exact le_antisymm (h ▸ min_le_right x _) (le_min hx (distR_nonneg p c))
    rw [hmin]
    simp only [List.mem_cons]
    constructor
    · rintro ((h | h) | ⟨c', hc', h⟩)
      · exact Or.inl h
      · exact Or.inr ⟨c, Or.inl rfl, h⟩
      · exact Or.inr ⟨c', Or.inr hc', h⟩
    · rintro (h | ⟨c', (rfl | hc'), h⟩)
      · exact Or.inl (Or.inl h)
      · exact Or.inl (Or.inr h)
      · exact Or.inr ⟨c', hc', h⟩

theorem minDistTo_nonneg (p : Pt) (cs : List Pt) : 0 ≤ minDistTo p cs := by
  cases cs with
  | nil => exact le_refl 0
  | cons c rest => exact foldl_min_distR_nonneg p rest (distR_nonneg p c)

theorem minDistTo_eq_zero_iff (p : Pt) {cs : List Pt} (h : cs ≠ []) :
    minDistTo p cs = 0 ↔ ∃ c ∈ cs, p = c := by
  cases cs with
  | nil => exact absurd rfl h
  | cons c rest =>
    unfold minDistTo
    rw [foldl_min_distR_eq_zero_iff p rest (distR_nonneg p c)]
    simp only [distR_eq_zero_iff, List.mem_cons]
    constructor
    · rintro (h1 | ⟨c', hc', h1⟩)
      · exact ⟨c, Or.inl rfl, h1⟩
      · exact ⟨c', Or.inr hc', h1⟩
    · rintro ⟨c', (rfl | hc'), h1⟩
      · exact Or.inl h1
      · exact Or.inr ⟨c', hc', h1⟩

theorem optimalCost_nonneg (agents : List Agent) (cs : List Pt) :
    0 ≤ optimalCost agents cs := by
  apply List.sum_nonneg
  intro x hx
  rcases List.mem_map.mp hx with ⟨a, _, rfl⟩
  exact minDistTo_nonneg a.pos cs

theorem list_sum_eq_zero_iff_of_nonneg {l : List ℝ} (h : ∀ x ∈ l, 0 ≤ x) :
    l.sum = 0 ↔ ∀ x ∈ l, x = 0 := by
  induction l with
  | nil => simp
  | cons a rest ih =>
    rw [List.sum_cons]
    have ha : 0 ≤ a := h a (List.mem_cons_self a rest)
    have hrest : ∀ x ∈ rest, 0 ≤ x := fun x hx => h x (List.mem_cons_of_mem a hx)
    rw [add_eq_zero_iff_of_nonneg ha (List.sum_nonneg hrest), ih hrest]
    simp

theorem optimalCost_eq_zero_iff (agents : List Agent) {cs : List Pt} (h : cs ≠ []) :
    optimalCost agents cs = 0 ↔ ∀ a ∈ agents, ∃ c ∈ cs, a.pos = c := by
  unfold optimalCost
  rw [list_sum_eq_zero_iff_of_nonneg]
  · constructor
    · intro hall a ha
      have := hall (minDistTo a.pos cs) (List.mem_map.mpr ⟨a, ha, rfl⟩)
      exact (minDistTo_eq_zero_iff a.pos h).mp this
    · intro hall x hx
      rcases List.mem_map.mp hx with ⟨a, ha, rfl⟩
      exact (minDistTo_eq_zero_iff a.pos h).mpr (hall a ha)
  · intro x hx
    rcases List.mem_map.mp hx with ⟨a, _, rfl⟩
    exact minDistTo_nonneg a.pos cs

/-- C5: `competitive_ratio` returns the raw step sum when no customers
remain and otherwise the step sum divided by the summed per-agent minimum
distances to the remaining customers; the result is always nonnegative, and
it is `⊤` (the source's `float('inf')`) exactly when at least one customer
remains and every agent's position coincides with some remaining
customer. -/
theorem competitive_ratio_props (agents : List Agent) (env : Env) :
    (env.customers = [] →
      competitive_ratio agents env = ((total_steps agents : ℝ) : WithTop ℝ)) ∧
    (env.customers ≠ [] → 0 < optimalCost agents env.customers →
      competitive_ratio agents env
        = (((total_steps agents : ℝ) / optimalCost agents env.customers : ℝ) : WithTop ℝ)) ∧
    0 ≤ competitive_ratio agents env ∧
    (competitive_ratio agents env = ⊤ ↔
      env.customers ≠ [] ∧ ∀ a ∈ agents, ∃ c ∈ env.customers, a.pos = c) := by
  by_cases hcs : env.customers = []
  · refine ⟨fun _ => by rw [competitive_ratio, if_pos hcs], fun h => absurd hcs h, ?_, ?_⟩
    · rw [competitive_ratio, if_pos hcs]
      rw [show (0 : WithTop ℝ) = ((0 : ℝ) : WithTop ℝ) from rfl, WithTop.coe_le_coe]
      positivity
    · rw [competitive_ratio, if_pos hcs]
      constructor
      · intro h
        exact absurd h WithTop.coe_ne_top
      · rintro ⟨h, -⟩
        exact absurd hcs h
  · by_cases hopt : 0 < optimalCost agents env.customers
    · refine ⟨fun h => absurd h hcs,
        fun _ _ => by rw [competitive_ratio, if_neg hcs, if_pos hopt], ?_, ?_⟩
      · rw [competitive_ratio, if_neg hcs, if_pos hopt]
        rw [show (0 : WithTop ℝ) = ((0 : ℝ) : WithTop ℝ) from rfl, WithTop.coe_le_coe]
        positivity
      · rw [competitive_ratio, if_neg hcs, if_pos hopt]
        constructor
        · intro h
          exact absurd h WithTop.coe_ne_top
        · rintro ⟨-, hall⟩
          have h0 : optimalCost agents env.customers = 0 :=
            (optimalCost_eq_zero_iff agents hcs).mpr hall
          rw [h0] at hopt
          exact absurd hopt (lt_irrefl 0)
    · have h0 : optimalCost agents env.customers = 0 :=
        le_antisymm (not_lt.mp hopt) (optimalCost_nonneg agents env.customers)
      refine ⟨fun h => absurd h hcs, fun _ hpos => absurd hpos hopt, ?_, ?_⟩
      · rw [competitive_ratio, if_neg hcs, if_neg hopt]
        exact le_top
      · rw [competitive_ratio, if_neg hcs, if_neg hopt]
        constructor
        · intro _
          exact ⟨hcs, (optimalCost_eq_zero_iff agents hcs).mp h0⟩
        · intro _
          rfl

/-- A concrete instance of C3 at a fresh full-battery agent. -/
theorem battery_monotone_dead_frozen_witness :
    (move { size := 20, customers := [] } anyMoveRand soloAgent).battery ≤ soloAgent.battery ∧
    (soloAgent.battery = 0 →
      (move { size := 20, customers := [] } anyMoveRand soloAgent).battery = 0 ∧
      (move { size := 20, customers := [] } anyMoveRand soloAgent).pos = soloAgent.pos) :=
  battery_monotone_dead_frozen { size := 20, customers := [] } anyMoveRand soloAgent
    (by norm_num [soloAgent]) (by norm_num [soloAgent]) (by norm_num [soloAgent])
    (by norm_num [soloAgent]) (by norm_num [anyMoveRand])

end DDS